import Mathlib

/-!
Verification development for the date-filtering core of the
`event_summary_app` repository (a Streamlit utility that filters Word-document
tables and paragraphs by a target calendar date).

The repository contains several near-duplicate script variants.  We embed the
shared core shallowly:

* `normalize3` / `normalize4` — the `str.replace` chains rewriting full-width
  slash / hyphen / dot and underscore (three replacements in
  `parse_to_western_date` / `find_date_like_in_text`, four in the enhanced
  `filter_df_by_date_in_column`);
* `parse_to_western_date` — the ROC-year regex branch followed by the fixed
  `strptime` format list;
* `find_date_like_in_text` — `re.finditer` over the three date patterns,
  feeding matches to `parse_to_western_date`;
* `filter_df_by_date_in_column` (two embedded variants: the enhanced
  candidate-substring one, and the component-comparison one from the last
  script variant);
* the table snippet-extraction loop (`td_candidates` / slice with `min`),
  the paragraph search loop, and the overall result pipeline with its
  paragraph-fallback guard and empty-snippet filters.

Text is modelled as `List Char` (Python strings are sequences of code points,
and all slicing in the source is by code point).  The digit class `\d` is
modelled as the ASCII digits, which is exact on every string the theorems
touch (the generated candidate strings and the concrete inputs are ASCII
digits plus separators and CJK glyphs).
-/

namespace EventSummary

/-- A Python `datetime`/`date` value reduced to its calendar components
(the source never uses the time-of-day part). -/
structure PyDate where
  year : Nat
  month : Nat
  day : Nat
deriving DecidableEq, Repr

/-- ASCII decimal digit test, the model of the regex class `\d` on the
strings this development evaluates. -/
def isDig (c : Char) : Bool := 48 ≤ c.toNat ∧ c.toNat ≤ 57

/-- The slash-or-hyphen separator class used by every numeric date pattern
in the source. -/
def isSep (c : Char) : Bool := c = '/' ∨ c = '-'

/-- Python `str.isspace` on the characters relevant here (used by
`str.strip`). -/
def isPySpace (c : Char) : Bool :=
  c = ' ' ∨ c = '\t' ∨ c = '\n' ∨ c = '\r' ∨ c = '\x0b' ∨ c = '\x0c' ∨ c = '　'

/-- `str.strip()`: drop leading and trailing whitespace. -/
def pyStrip (l : List Char) : List Char :=
  ((l.dropWhile isPySpace).reverse.dropWhile isPySpace).reverse

/-- One character of the three-replacement chain
`.replace("／","/").replace("－","-").replace("_","/")` used by
`parse_to_western_date` and `find_date_like_in_text`. -/
def normChar3 (c : Char) : Char :=
  if c = '／' then '/' else if c = '－' then '-' else if c = '_' then '/' else c

/-- The three-replacement normalization (each replacement maps one character
to one character, so the chain is a character map). -/
def normalize3 (l : List Char) : List Char := l.map normChar3

/-- One character of the four-replacement chain
`.replace("／","/").replace("－","-").replace("_","/").replace("．",".")`
used by the enhanced `filter_df_by_date_in_column`. -/
def normChar4 (c : Char) : Char :=
  if c = '／' then '/' else if c = '－' then '-' else if c = '_' then '/'
  else if c = '．' then '.' else c

/-- The four-replacement normalization of the enhanced filter. -/
def normalize4 (l : List Char) : List Char := l.map normChar4

/-- Decimal digit character for a value below ten (only ever applied to
values below ten). -/
def digCh : Nat → Char
  | 0 => '0' | 1 => '1' | 2 => '2' | 3 => '3' | 4 => '4'
  | 5 => '5' | 6 => '6' | 7 => '7' | 8 => '8' | _ => '9'

/-- Decimal rendering helper, structurally recursive on a fuel argument so
that the kernel can evaluate it. -/
def numToCharsAux : Nat → Nat → List Char
  | 0, _ => []
  | f + 1, n => if n < 10 then [digCh n] else numToCharsAux f (n / 10) ++ [digCh (n % 10)]

/-- Decimal rendering of a natural number, as Python `str(n)` / `f"{n}"`
produce it (no padding, no sign). -/
def numToChars (n : Nat) : List Char := numToCharsAux (n + 1) n

/-- Decimal rendering of an integer, as Python `f"{i}"` produces it
(a leading minus sign for negative values). -/
def intToChars (i : Int) : List Char :=
  if i < 0 then '-' :: numToChars i.natAbs else numToChars i.natAbs

/-- Two-digit zero-padded rendering, as `strftime("%m")` / `%d` and
`f"{n:02d}"` produce for values below 100. -/
def pad2 (n : Nat) : List Char := if n < 10 then ['0', digCh n] else numToChars n

/-- Python `int()` on a string of decimal digits. -/
def digitsToNat (l : List Char) : Nat := l.foldl (fun a c => a * 10 + (c.toNat - 48)) 0

/-- Gregorian leap-year rule, as Python's `calendar`/`datetime` implement it. -/
def isLeap (y : Nat) : Bool := y % 4 = 0 ∧ (y % 100 ≠ 0 ∨ y % 400 = 0)

/-- Days in a month, as Python's `datetime` validates them. -/
def daysInMonth (y m : Nat) : Nat :=
  if m = 2 then (if isLeap y then 29 else 28)
  else if m = 4 ∨ m = 6 ∨ m = 9 ∨ m = 11 then 30 else 31

/-- `datetime(year, month, day)` as a fallible constructor: Python raises
`ValueError` outside these ranges (`MINYEAR = 1`, `MAXYEAR = 9999`). -/
def mkDate (y m d : Nat) : Option PyDate :=
  if 1 ≤ y ∧ y ≤ 9999 ∧ 1 ≤ m ∧ m ≤ 12 ∧ 1 ≤ d ∧ d ≤ daysInMonth y m then
    some ⟨y, m, d⟩
  else none

/-- Python `str.find`: index of the first occurrence of `needle` in `hay`,
`none` when absent (the source's `-1`). -/
def findSub : List Char → List Char → Option Nat
  | [], needle => if needle.isPrefixOf [] then some 0 else none
  | c :: t, needle =>
    if needle.isPrefixOf (c :: t) then some 0 else (findSub t needle).map (· + 1)

/-- Python `needle in hay` (substring containment). -/
def containsSub (hay needle : List Char) : Bool := (findSub hay needle).isSome

/-! ## The regex engine fragment

`find_date_like_in_text` (last script variant, the one whose recognizer is
entirely in-repository code) scans with `re.finditer` over three patterns:

* `\d{3,4}` sep `\d{1,2}` sep `\d{1,2}`
* `\d{1,2}` sep `\d{1,2}`
* `\d{1,2}` `月` `\d{1,2}` `日`

where sep is the slash-or-hyphen class.  Each pattern is a plain
concatenation of greedy bounded digit repetitions and single-character
literals, so Python's backtracking on it is: try the longest digit run
first, fall back to shorter runs when the continuation fails.  `mt` below
implements exactly that (digit bounds in the source never exceed 4, so the
four explicit attempts cover every pattern).  `mt` is structurally
recursive on a fuel argument so the kernel can evaluate it; the fuel is
always instantiated to more than the token-list length, which the
recursion never exceeds. -/

/-- One token of a source regex: a greedy bounded digit run, the
slash-or-hyphen class, or a literal character. -/
inductive RTok where
  | digits (lo hi : Nat)
  | sepTok
  | lit (c : Char)
deriving DecidableEq, Repr

/-- Consume exactly `n` digit characters, returning the rest. -/
def dropDigits : Nat → List Char → Option (List Char)
  | 0, s => some s
  | _ + 1, [] => none
  | n + 1, c :: s => if isDig c then dropDigits n s else none

/-- Backtracking matcher for a token list against a prefix of `s`; returns
the number of characters consumed by the leftmost-greedy match, as Python's
engine would choose it.  Digit runs try lengths 4, 3, 2, 1 in order (the
source patterns never allow longer runs). -/
def mt : Nat → List RTok → List Char → Option Nat
  | 0, _, _ => none
  | _ + 1, [], _ => some 0
  | f + 1, .sepTok :: rest, s =>
    match s with
    | [] => none
    | c :: s' => if isSep c then (mt f rest s').map (· + 1) else none
  | f + 1, .lit ch :: rest, s =>
    match s with
    | [] => none
    | c :: s' => if c = ch then (mt f rest s').map (· + 1) else none
  | f + 1, .digits lo hi :: rest, s =>
    let att : Nat → Option Nat := fun n =>
      if lo ≤ n ∧ n ≤ hi then
        match dropDigits n s with
        | some s' => (mt f rest s').map (· + n)
        | none => none
      else none
    (att 4) <|> (att 3) <|> (att 2) <|> (att 1)

/-- Prefix match of a whole pattern, with adequate fuel. -/
def matchPat (pat : List RTok) (s : List Char) : Option Nat :=
  mt (pat.length + 1) pat s

/-- Pattern `\d{3,4}` sep `\d{1,2}` sep `\d{1,2}`. -/
def pat1 : List RTok := [.digits 3 4, .sepTok, .digits 1 2, .sepTok, .digits 1 2]

/-- Pattern `\d{1,2}` sep `\d{1,2}`. -/
def pat2 : List RTok := [.digits 1 2, .sepTok, .digits 1 2]

/-- Pattern `\d{1,2}` `月` `\d{1,2}` `日`. -/
def pat3 : List RTok := [.digits 1 2, .lit '月', .digits 1 2, .lit '日']

/-- `re.finditer` body: scan left to right; on a match emit it and continue
after its end, otherwise advance one character.  Structural on a fuel that
the wrapper instantiates with the string length (the source patterns always
consume at least one character, so the fuel never runs out). -/
def finditerAux (pat : List RTok) : Nat → List Char → List (List Char)
  | 0, _ => []
  | f + 1, s =>
    match matchPat pat s, s with
    | some l, _ => s.take l :: finditerAux pat f (s.drop l)
    | none, [] => []
    | none, _ :: t => finditerAux pat f t

/-- `re.finditer(pat, s)` restricted to the matched substrings (the source
only uses `m.group()`). -/
def finditer (pat : List RTok) (s : List Char) : List (List Char) :=
  finditerAux pat s.length s

/-! ## `parse_to_western_date`

```python
def parse_to_western_date(date_str):
    date_str = date_str.strip()
    date_str = date_str.replace("／", "/").replace("－", "-").replace("_", "/")
    match = re.match(ROC_PATTERN, date_str)   # (\d{2,3}) sep (\d{1,2}) sep (\d{1,2}), anchored
    if match:
        year, month, day = map(int, match.groups())
        if year < 200:
            year += 1911
        try:
            return datetime(year, month, day)
        except ValueError:
            return None
    for fmt in ("%Y-%m-%d", "%Y/%m/%d", "%Y%m%d", "%m/%d", "%m-%d", "%m月%d日"):
        try:
            return datetime.strptime(date_str, fmt)
        except ValueError:
            continue
    return None
```

The anchored ROC regex decomposes the string uniquely into maximal digit
runs separated by single separator characters (a run longer than a group's
bound leaves a digit where the separator or the anchor must match, so
backtracking cannot rescue it); `rocTriple` implements that decomposition.
The `strptime` directives compile (CPython `_strptime`) to `%Y` = exactly
four digits, `%m` = `1[0-2]|0[1-9]|[1-9]`, `%d` =
`3[01]|[12]\d|0[1-9]|[1-9]| [1-9]`, with the whole string required to be
consumed; `%m`/`%d` followed by a literal or the end therefore accept
exactly a 1–2 digit run with the value in range (plus `%d`'s
space-then-digit alternative), which the run-based functions below
implement.  `strptime`'s default year is 1900. -/

/-- Maximal digit-run prefix and the remainder. -/
def spanDigits : List Char → List Char × List Char
  | [] => ([], [])
  | c :: s => if isDig c then
      let p := spanDigits s
      (c :: p.1, p.2)
    else ([], c :: s)

/-- The anchored ROC regex `(\d{2,3})` sep `(\d{1,2})` sep `(\d{1,2})`
against the whole string, returning the three numeric groups. -/
def rocTriple (s : List Char) : Option (Nat × Nat × Nat) :=
  match (spanDigits s).2 with
  | c1 :: r2 =>
    (match (spanDigits r2).2 with
     | c2 :: r4 =>
       if 2 ≤ (spanDigits s).1.length ∧ (spanDigits s).1.length ≤ 3 ∧ isSep c1 ∧
           1 ≤ (spanDigits r2).1.length ∧ (spanDigits r2).1.length ≤ 2 ∧ isSep c2 ∧
           1 ≤ (spanDigits r4).1.length ∧ (spanDigits r4).1.length ≤ 2 ∧
           (spanDigits r4).2 = [] then
         some (digitsToNat (spanDigits s).1, digitsToNat (spanDigits r2).1,
           digitsToNat (spanDigits r4).1)
       else none
     | [] => none)
  | [] => none

/-- `%m` followed by the literal `lit`: a 1–2 digit run with value 1–12,
then `lit`; returns the month value and the remainder after `lit`. -/
def monthThen (lit : Char) (s : List Char) : Option (Nat × List Char) :=
  if ((spanDigits s).1.length = 1 ∨ (spanDigits s).1.length = 2) ∧
      1 ≤ digitsToNat (spanDigits s).1 ∧ digitsToNat (spanDigits s).1 ≤ 12 then
    (match (spanDigits s).2 with
     | c :: r => if c = lit then some (digitsToNat (spanDigits s).1, r) else none
     | [] => none)
  else none

/-- `%d` at the end of the format: a 1–2 digit run with value 1–31 consuming
the rest, or the space-then-nonzero-digit alternative. -/
def dayEnd (s : List Char) : Option Nat :=
  if (spanDigits s).1 = [] then
    (match s with
     | ' ' :: c :: rest => if isDig c ∧ c ≠ '0' ∧ rest = [] then some (c.toNat - 48) else none
     | _ => none)
  else if ((spanDigits s).1.length = 1 ∨ (spanDigits s).1.length = 2) ∧
      1 ≤ digitsToNat (spanDigits s).1 ∧ digitsToNat (spanDigits s).1 ≤ 31 ∧
      (spanDigits s).2 = [] then
    some (digitsToNat (spanDigits s).1)
  else none

/-- `%d` followed by the literal `lit` at the end of the format. -/
def dayThenEnd (lit : Char) (s : List Char) : Option Nat :=
  if (spanDigits s).1 = [] then
    (match s with
     | ' ' :: c :: rest =>
       if isDig c ∧ c ≠ '0' ∧ rest = [lit] then some (c.toNat - 48) else none
     | _ => none)
  else if ((spanDigits s).1.length = 1 ∨ (spanDigits s).1.length = 2) ∧
      1 ≤ digitsToNat (spanDigits s).1 ∧ digitsToNat (spanDigits s).1 ≤ 31 ∧
      (spanDigits s).2 = [lit] then
    some (digitsToNat (spanDigits s).1)
  else none

/-- `strptime` with format `%Y` sep `%m` sep `%d` (`sep` a concrete
separator character): exactly four digits, the separator, a month run, the
separator, a day run consuming the rest; then `datetime` construction. -/
def fmtYsep (sep : Char) (s : List Char) : Option PyDate :=
  match s with
  | y1 :: y2 :: y3 :: y4 :: c :: rest =>
    if isDig y1 ∧ isDig y2 ∧ isDig y3 ∧ isDig y4 ∧ c = sep then
      match monthThen sep rest with
      | some (m, r2) =>
        match dayEnd r2 with
        | some d => mkDate (digitsToNat [y1, y2, y3, y4]) m d
        | none => none
      | none => none
    else none
  | _ => none

/-- The `%m%d` tail of format `%Y%m%d`: CPython's regex alternatives for
`%m` (`1[0-2]`, `0[1-9]`, `[1-9]`) tried in order, each continued with the
`%d`-at-end match, with backtracking to the next alternative on failure. -/
def ymdCompactMD (rest : List Char) : Option (Nat × Nat) :=
  match rest with
  | a :: b :: r2 =>
    (if a = '1' ∧ (b = '0' ∨ b = '1' ∨ b = '2') then
       (dayEnd r2).map (fun d => (10 + (b.toNat - 48), d))
     else none) <|>
    (if a = '0' ∧ isDig b ∧ b ≠ '0' then
       (dayEnd r2).map (fun d => (b.toNat - 48, d))
     else none) <|>
    (if isDig a ∧ a ≠ '0' then
       (dayEnd (b :: r2)).map (fun d => (a.toNat - 48, d))
     else none)
  | _ => none

/-- `strptime` with format `%Y%m%d`. -/
def fmtYmdCompact (s : List Char) : Option PyDate :=
  match s with
  | y1 :: y2 :: y3 :: y4 :: rest =>
    if isDig y1 ∧ isDig y2 ∧ isDig y3 ∧ isDig y4 then
      match ymdCompactMD rest with
      | some (m, d) => mkDate (digitsToNat [y1, y2, y3, y4]) m d
      | none => none
    else none
  | _ => none

/-- `strptime` with format `%m` sep `%d` (default year 1900). -/
def fmtMDsep (sep : Char) (s : List Char) : Option PyDate :=
  match monthThen sep s with
  | some (m, r) =>
    match dayEnd r with
    | some d => mkDate 1900 m d
    | none => none
  | none => none

/-- `strptime` with format `%m月%d日` (default year 1900). -/
def fmtMDchinese (s : List Char) : Option PyDate :=
  match monthThen '月' s with
  | some (m, r) =>
    match dayThenEnd '日' r with
    | some d => mkDate 1900 m d
    | none => none
  | none => none

/-- The six-format `strptime` cascade. -/
def strptimeChain (s : List Char) : Option PyDate :=
  (fmtYsep '-' s) <|> (fmtYsep '/' s) <|> (fmtYmdCompact s) <|>
  (fmtMDsep '/' s) <|> (fmtMDsep '-' s) <|> (fmtMDchinese s)

/-- The source's `parse_to_western_date`. -/
def parse_to_western_date (input : List Char) : Option PyDate :=
  match rocTriple (normalize3 (pyStrip input)) with
  | some (a, b, c) => mkDate (if a < 200 then a + 1911 else a) b c
  | none => strptimeChain (normalize3 (pyStrip input))

/-- The source's `find_date_like_in_text` (recognizer variant whose parsing
is entirely in-repository): normalize, run the three patterns in order,
parse every match, silently dropping failures. -/
def find_date_like_in_text (text : List Char) : List PyDate :=
  (finditer pat1 (normalize3 text)).filterMap parse_to_western_date ++
  (finditer pat2 (normalize3 text)).filterMap parse_to_western_date ++
  (finditer pat3 (normalize3 text)).filterMap parse_to_western_date

/-! ## Candidate renderings of the target date

The fixed textual renderings the filters and the snippet extractor build
from the target (`strftime` with `%Y`/`%m`/`%d` and f-strings; on the
hosting platform `%Y` prints the year without padding and `%m`/`%d`
zero-pad to two digits). -/

/-- `target_date.strftime("%Y-%m-%d")`. -/
def fmtIsoDash (t : PyDate) : List Char :=
  numToChars t.year ++ '-' :: (pad2 t.month ++ '-' :: pad2 t.day)

/-- `target_date.strftime("%Y/%m/%d")`. -/
def fmtIsoSlash (t : PyDate) : List Char :=
  numToChars t.year ++ '/' :: (pad2 t.month ++ '/' :: pad2 t.day)

/-- `target_date.strftime("%Y%m%d")`. -/
def fmtYmdNoSep (t : PyDate) : List Char :=
  numToChars t.year ++ pad2 t.month ++ pad2 t.day

/-- `target_date.strftime("%m/%d")` (zero-padded). -/
def fmtMDpad (t : PyDate) : List Char := pad2 t.month ++ '/' :: pad2 t.day

/-- `f"{target_date.month}/{target_date.day}"` (no leading zeros). -/
def fmtMD (t : PyDate) : List Char := numToChars t.month ++ '/' :: numToChars t.day

/-- `f"{target_date.month}-{target_date.day}"` (last variant's extra form). -/
def fmtMDdash (t : PyDate) : List Char := numToChars t.month ++ '-' :: numToChars t.day

/-- `f"{target_date.month:02d}/{target_date.day:02d}"`. -/
def fmtMDpad02 (t : PyDate) : List Char := pad2 t.month ++ '/' :: pad2 t.day

/-- Chinese long form `f"{year}年{month}月{day}日"`. -/
def fmtChinese (t : PyDate) : List Char :=
  numToChars t.year ++ '年' :: (numToChars t.month ++ '月' :: (numToChars t.day ++ ['日']))

/-- Chinese short form `f"{month}月{day}日"`. -/
def fmtChineseShort (t : PyDate) : List Char :=
  numToChars t.month ++ '月' :: (numToChars t.day ++ ['日'])

/-- ROC form `f"{year - 1911}/{month}/{day}"` (Python `int` subtraction, so
a pre-1911 year renders with a minus sign). -/
def fmtRoc (t : PyDate) : List Char :=
  intToChars ((t.year : Int) - 1911) ++ '/' :: (numToChars t.month ++ '/' :: numToChars t.day)

/-! ## `filter_df_by_date_in_column`, enhanced variant

```python
def filter_df_by_date_in_column(df, column, target_date):
    ...
    for idx, cell in df[column].fillna("").items():
        text = str(cell)
        normalized_text = text.replace(...)          # four replacements
        td_strs = [ "%Y-%m-%d", "%Y/%m/%d", "%Y%m%d", "%m/%d", f"{m}/{d}" ]
        td_chinese = f"{y}年{m}月{d}日"
        td_chinese_short = f"{m}月{d}日"
        td_roc = f"{y - 1911}/{m}/{d}"
        td_roc_no_year = f"{m}/{d}"
        found = False
        if any(s in normalized_text for s in td_strs) or td_chinese in ... or
           td_chinese_short in ... or td_roc in ... or td_roc_no_year in ...:
            found = True
        else:
            parsed = find_date_like_in_text(normalized_text)
            if parsed and any(d == target_date for d in parsed):
                found = True
        if found: matches.append((idx, cell))
    return df.loc[[idx for idx, _ in matches]]
```

This variant's `find_date_like_in_text` delegates to the third-party
`dateutil` parser, which is not repository code; the embedding therefore
takes the recognizer as an explicit function parameter `recog` and the
theorems about this filter hold for every recognizer. -/

/-- The `td_strs` list of the enhanced filter. -/
def tdStrsV2 (t : PyDate) : List (List Char) :=
  [fmtIsoDash t, fmtIsoSlash t, fmtYmdNoSep t, fmtMDpad t, fmtMD t]

/-- The substring branch of the enhanced filter: any `td_strs` member, the
Chinese long or short form, the ROC form, or the year-omitted ROC form
occurs in the normalized cell text. -/
def candidateSubstrMatchV2 (t : PyDate) (nt : List Char) : Bool :=
  (tdStrsV2 t).any (fun s => containsSub nt s) ||
  containsSub nt (fmtChinese t) || containsSub nt (fmtChineseShort t) ||
  containsSub nt (fmtRoc t) || containsSub nt (fmtMD t)

/-- One cell of the enhanced filter: substring branch first, recognizer
fallback only when it fails. -/
def cellMatchesV2 (recog : List Char → List PyDate) (t : PyDate) (text : List Char) : Bool :=
  let nt := normalize4 text
  if candidateSubstrMatchV2 t nt then true
  else (recog nt).any (fun d => d = t)

/-- The enhanced `filter_df_by_date_in_column` on one column's cell texts
(`df.loc` over the matched indices keeps the original row order, i.e. it is
a filter). -/
def filter_df_by_date_in_column_v2 (recog : List Char → List PyDate) (t : PyDate)
    (cells : List (List Char)) : List (List Char) :=
  cells.filter (cellMatchesV2 recog t)

/-! ## `filter_df_by_date_in_column`, last variant

```python
        normalized_text = text.replace(...)          # three replacements
        td_strs = [ "%Y-%m-%d", "%Y/%m/%d", f"{m}/{d}", f"{m:02d}/{d:02d}", f"{m}-{d}" ]
        td_chinese = f"{m}月{d}日"
        if any(s in normalized_text for s in td_strs) or td_chinese in normalized_text:
            found = True
        else:
            parsed = find_date_like_in_text(normalized_text)
            for d in parsed:
                if d.year == target_date.year and d.month == target_date.month
                   and d.day == target_date.day:
                    found = True; break
```

This variant's `find_date_like_in_text` is the in-repository recognizer
embedded above, so the filter is fully concrete. -/

/-- The `td_strs` list of the last variant. -/
def tdStrsV4 (t : PyDate) : List (List Char) :=
  [fmtIsoDash t, fmtIsoSlash t, fmtMD t, fmtMDpad02 t, fmtMDdash t]

/-- The substring branch of the last variant's filter. -/
def candidateSubstrMatchV4 (t : PyDate) (nt : List Char) : Bool :=
  (tdStrsV4 t).any (fun s => containsSub nt s) || containsSub nt (fmtChineseShort t)

/-- One cell of the last variant's filter. -/
def cellMatchesV4 (t : PyDate) (text : List Char) : Bool :=
  let nt := normalize3 text
  if candidateSubstrMatchV4 t nt then true
  else (find_date_like_in_text nt).any
    (fun d => d.year = t.year ∧ d.month = t.month ∧ d.day = t.day)

/-- The last variant's `filter_df_by_date_in_column` on one column. -/
def filter_df_by_date_in_column_v4 (t : PyDate) (cells : List (List Char)) :
    List (List Char) :=
  cells.filter (cellMatchesV4 t)

/-- The last variant's main flow up to filtering: parse the user's date
string; on failure report the blocking validation error without touching
the data, otherwise filter. -/
def runV4 (date_str : List Char) (cells : List (List Char)) :
    Except Unit (List (List Char)) :=
  match parse_to_western_date date_str with
  | none => .error ()
  | some t => .ok (filter_df_by_date_in_column_v4 t cells)

/-! ## Snippet extraction (table loop and `export_to_word` helpers)

```python
    td_candidates = [ target_date.strftime("%Y-%m-%d"),
                      target_date.strftime("%Y/%m/%d"),
                      f"{y}年{m}月{d}日" ]
    start_idx = -1
    chosen_td = None
    for td in td_candidates:
        if td in cell_text:
            start_idx = cell_text.find(td)
            chosen_td = td
            break
    if start_idx != -1:
        end_idx = min(len(cell_text), start_idx + len(chosen_td) + num_chars)
        snippet = cell_text[start_idx:end_idx]
    else:
        snippet = ""
```
-/

/-- The snippet extractor's candidate list (three year-bearing forms,
tried in this order). -/
def td_candidates (t : PyDate) : List (List Char) :=
  [fmtIsoDash t, fmtIsoSlash t, fmtChinese t]

/-- The candidate loop: first candidate (in list order) occurring in the
text, with its first occurrence offset. -/
def findTd : List (List Char) → List Char → Option (List Char × Nat)
  | [], _ => none
  | td :: rest, text =>
    match findSub text td with
    | some i => some (td, i)
    | none => findTd rest text

/-- The snippet computed for one matched cell (empty when no candidate
occurs). -/
def tableSnippet (t : PyDate) (numChars : Nat) (text : List Char) : List Char :=
  match findTd (td_candidates t) text with
  | some (td, i) =>
    let e := min text.length (i + td.length + numChars)
    (text.drop i).take (e - i)
  | none => []

/-! ## Result pipeline (enhanced variant's main flow)

Table pass: per (table, chosen column) unit, filter the cells, compute the
snippets, keep only rows whose stripped snippet is non-empty, and append
the unit's frame only when non-empty.  Paragraph pass: only entered when
the table pass produced no result frames; a paragraph contributes when the
recognizer matches the target in it and one of the three snippet candidates
occurs in the raw text.  Finally the concatenated results are filtered once
more for non-empty stripped snippets. -/

/-- A result row handed to the exporters: its source label and snippet. -/
structure ResultRow where
  source : List Char
  snippet : List Char
deriving DecidableEq, Repr

/-- Source label `f"table_{i+1}"`. -/
def tableLabel (i : Nat) : List Char := "table_".toList ++ numToChars (i + 1)

/-- Source label `"paragraphs"`. -/
def paraLabel : List Char := "paragraphs".toList

/-- The snippet rows surviving the cell filter and the per-unit
non-empty-snippet filter (line `filtered = filtered[filtered["text"].str.strip() != ""]`). -/
def unitRows (recog : List Char → List PyDate) (t : PyDate) (numChars : Nat)
    (cells : List (List Char)) : List (List Char) :=
  ((cells.filter (cellMatchesV2 recog t)).map (tableSnippet t numChars)).filter
    (fun s => pyStrip s ≠ [])

/-- One (table, chosen column) unit of the table pass: `none` when the unit
contributes no result frame. -/
def tableUnit (recog : List Char → List PyDate) (t : PyDate) (numChars : Nat)
    (i : Nat) (cells : List (List Char)) : Option (List ResultRow) :=
  if cells.filter (cellMatchesV2 recog t) = [] then none
  else if unitRows recog t numChars cells = [] then none
  else some ((unitRows recog t numChars cells).map (fun s => ⟨tableLabel i, s⟩))

/-- The `result_rows` list built by the table pass. -/
def tableResultsV2 (recog : List Char → List PyDate) (t : PyDate) (numChars : Nat)
    (units : List (Nat × List (List Char))) : List (List ResultRow) :=
  units.filterMap (fun u => tableUnit recog t numChars u.1 u.2)

/-- The paragraph search loop (index-carrying): a paragraph contributes
`(index, snippet)` when the recognizer finds the target in it and one of
the three candidates occurs in the raw text. -/
def paraSearch (recog : List Char → List PyDate) (t : PyDate) (numChars : Nat) :
    Nat → List (List Char) → List (Nat × List Char)
  | _, [] => []
  | i, txt :: rest =>
    (if (recog txt).any (fun d => d = t) then
      match findTd (td_candidates t) txt with
      | some (td, j) =>
        let e := min txt.length (j + td.length + numChars)
        [(i, (txt.drop j).take (e - j))]
      | none => []
    else []) ++ paraSearch recog t numChars (i + 1) rest

/-- The paragraph pass's contribution to `result_rows` (one frame when any
paragraph matched, none otherwise). -/
def paraFrame (recog : List Char → List PyDate) (t : PyDate) (numChars : Nat)
    (paras : List (List Char)) : List (List ResultRow) :=
  if paraSearch recog t numChars 0 paras = [] then []
  else [(paraSearch recog t numChars 0 paras).map (fun p => (⟨paraLabel, p.2⟩ : ResultRow))]

/-- The whole filter-and-export pipeline up to the list handed to the
exporters: table pass, paragraph fallback guarded by `result_rows` being
empty, concatenation, and the final non-empty-snippet filter. -/
def pipelineV2 (recog : List Char → List PyDate) (t : PyDate) (numChars : Nat)
    (units : List (Nat × List (List Char))) (paras : List (List Char)) :
    List ResultRow :=
  (if tableResultsV2 recog t numChars units = [] then paraFrame recog t numChars paras
   else tableResultsV2 recog t numChars units).flatten.filter
    (fun r => pyStrip r.snippet ≠ [])

/-! ## Character-class lemmas -/

theorem isDig_toNat {c : Char} (h : isDig c = true) : 48 ≤ c.toNat ∧ c.toNat ≤ 57 := by
  simpa [isDig] using h

theorem isDig_not_space {c : Char} (h : isDig c = true) : isPySpace c = false := by
  have hv := isDig_toNat h
  simp only [isPySpace]
  rw [decide_eq_false_iff_not]
  rintro (rfl | rfl | rfl | rfl | rfl | rfl | rfl) <;> simp_all

theorem isDig_not_sep {c : Char} (h : isDig c = true) : isSep c = false := by
  have hv := isDig_toNat h
  simp only [isSep]
  rw [decide_eq_false_iff_not]
  rintro (rfl | rfl) <;> simp_all

theorem isDig_norm3 {c : Char} (h : isDig c = true) : normChar3 c = c := by
  have hv := isDig_toNat h
  unfold normChar3
  rw [if_neg, if_neg, if_neg]
  · rintro rfl; simp_all
  · rintro rfl; simp_all
  · rintro rfl; simp_all

theorem isDig_norm4 {c : Char} (h : isDig c = true) : normChar4 c = c := by
  have hv := isDig_toNat h
  unfold normChar4
  rw [if_neg, if_neg, if_neg, if_neg]
  · rintro rfl; simp_all
  · rintro rfl; simp_all
  · rintro rfl; simp_all
  · rintro rfl; simp_all

theorem isDig_ne_of_not {c ch : Char} (h : isDig c = true) (hch : isDig ch = false) :
    (c = ch) = False := by
  simp only [eq_iff_iff, iff_false]
  rintro rfl; rw [h] at hch; cases hch

theorem norm3_id {l : List Char} (h : ∀ c ∈ l, normChar3 c = c) : normalize3 l = l := by
  induction l with
  | nil => rfl
  | cons c t ih =>
    simp only [normalize3, List.map_cons]
    rw [h c (by simp)]
    have := ih (fun c hc => h c (by simp [hc]))
    simp only [normalize3] at this
    rw [this]

theorem norm4_id {l : List Char} (h : ∀ c ∈ l, normChar4 c = c) : normalize4 l = l := by
  induction l with
  | nil => rfl
  | cons c t ih =>
    simp only [normalize4, List.map_cons]
    rw [h c (by simp)]
    have := ih (fun c hc => h c (by simp [hc]))
    simp only [normalize4] at this
    rw [this]

theorem pyStrip_id {l : List Char} (h : ∀ c ∈ l, isPySpace c = false) : pyStrip l = l := by
  unfold pyStrip
  have h1 : l.dropWhile isPySpace = l := by
    apply List.dropWhile_eq_self_iff.mpr
    intro hl
    have hm : l.get ⟨0, hl⟩ ∈ l := List.get_mem l 0 hl
    simp only [List.get_eq_getElem] at hm
    simp [h _ hm]
  have h2 : l.reverse.dropWhile isPySpace = l.reverse := by
    apply List.dropWhile_eq_self_iff.mpr
    intro hl
    have hm : l.reverse.get ⟨0, hl⟩ ∈ l := List.mem_reverse.mp (List.get_mem l.reverse 0 hl)
    simp only [List.get_eq_getElem, List.getElem_reverse, Nat.sub_zero] at hm
    simp [h _ hm]
  rw [h1, h2, List.reverse_reverse]

/-! ## `findSub` / `containsSub` lemmas -/

theorem prefixOf_exists : ∀ {a b : List Char}, a.isPrefixOf b = true → ∃ r, b = a ++ r := by
  intro a
  induction a with
  | nil => intro b _; exact ⟨b, rfl⟩
  | cons x xs ih =>
    intro b h
    cases b with
    | nil => simp [List.isPrefixOf] at h
    | cons y ys =>
      simp only [List.isPrefixOf, Bool.and_eq_true, beq_iff_eq] at h
      obtain ⟨r, hr⟩ := ih h.2
      exact ⟨r, by rw [h.1, hr]; rfl⟩

theorem prefixOf_append_self : ∀ (a r : List Char), a.isPrefixOf (a ++ r) = true := by
  intro a
  induction a with
  | nil => intro r; simp [List.isPrefixOf]
  | cons x xs ih => intro r; simp [List.isPrefixOf, ih]

theorem findSub_nil {needle : List Char} {i : Nat}
    (h : findSub [] needle = some i) : needle = [] ∧ i = 0 := by
  unfold findSub at h
  by_cases hp : needle.isPrefixOf ([] : List Char) = true
  · rw [if_pos hp] at h
    cases h
    refine ⟨?_, rfl⟩
    cases needle with
    | nil => rfl
    | cons c t => simp [List.isPrefixOf] at hp
  · rw [if_neg hp] at h; cases h

theorem findSub_spec : ∀ (hay needle : List Char) (i : Nat),
    findSub hay needle = some i →
    ∃ r, hay.drop i = needle ++ r ∧ i + needle.length ≤ hay.length := by
  intro hay
  induction hay with
  | nil =>
    intro needle i h
    obtain ⟨hn, hi⟩ := findSub_nil h
    subst hn; subst hi
    exact ⟨[], rfl, by simp⟩
  | cons c t ih =>
    intro needle i h
    unfold findSub at h
    by_cases hp : needle.isPrefixOf (c :: t) = true
    · rw [if_pos hp] at h
      cases h
      obtain ⟨r, hr⟩ := prefixOf_exists hp
      refine ⟨r, by simpa using hr, ?_⟩
      have : (c :: t).length = needle.length + r.length := by rw [hr]; simp
      omega
    · rw [if_neg hp] at h
      cases hi : findSub t needle with
      | none => rw [hi] at h; cases h
      | some j =>
        rw [hi] at h
        simp only [Option.map_some'] at h
        obtain ⟨r, hr, hlen⟩ := ih needle j hi
        cases h
        exact ⟨r, by simpa using hr, by simp; omega⟩

theorem findSub_append_left (a needle : List Char) :
    findSub (needle ++ a) needle = some 0 := by
  have hp := prefixOf_append_self needle a
  cases hn : needle ++ a with
  | nil =>
    rw [hn] at hp
    unfold findSub
    rw [if_pos hp]
  | cons c t =>
    rw [hn] at hp
    unfold findSub
    rw [if_pos hp]

theorem containsSub_of_findSub {hay needle : List Char} {i : Nat}
    (h : findSub hay needle = some i) : containsSub hay needle = true := by
  simp [containsSub, h]

/-! ## Decimal rendering: `numToChars` theory -/

theorem digCh_toNat {n : Nat} (h : n < 10) : (digCh n).toNat = 48 + n := by
  interval_cases n <;> rfl

theorem isDig_digCh (n : Nat) : isDig (digCh n) = true := by
  unfold digCh
  split <;> rfl

theorem ntcAux_congr : ∀ n f g, n < f → n < g → numToCharsAux f n = numToCharsAux g n := by
  intro n
  induction n using Nat.strong_induction_on with
  | _ n ih =>
    intro f g hf hg
    match f, g with
    | f' + 1, g' + 1 =>
      unfold numToCharsAux
      by_cases h10 : n < 10
      · simp [h10]
      · have hn10 : 10 ≤ n := by omega
        have hdiv : n / 10 < n := Nat.div_lt_self (by omega) (by omega)
        simp only [h10, if_false]
        rw [ih (n / 10) hdiv f' g' (by omega) (by omega)]

theorem ntc_unfold (n : Nat) : numToChars n =
    if n < 10 then [digCh n] else numToChars (n / 10) ++ [digCh (n % 10)] := by
  unfold numToChars
  conv_lhs => unfold numToCharsAux
  by_cases h10 : n < 10
  · simp [h10]
  · have hdiv : n / 10 < n := Nat.div_lt_self (by omega) (by omega)
    simp only [h10, if_false]
    rw [ntcAux_congr (n / 10) n (n / 10 + 1) (by omega) (by omega)]

theorem ntc_all_isDig : ∀ n, ∀ c ∈ numToChars n, isDig c = true := by
  intro n
  induction n using Nat.strong_induction_on with
  | _ n ih =>
    intro c hc
    rw [ntc_unfold] at hc
    by_cases h10 : n < 10
    · rw [if_pos h10] at hc
      simp only [List.mem_singleton] at hc
      rw [hc]; exact isDig_digCh n
    · rw [if_neg h10] at hc
      rcases List.mem_append.mp hc with h | h
      · exact ih (n / 10) (Nat.div_lt_self (by omega) (by omega)) c h
      · simp only [List.mem_singleton] at h
        rw [h]; exact isDig_digCh (n % 10)

theorem digitsToNat_append_one (l : List Char) (c : Char) :
    digitsToNat (l ++ [c]) = digitsToNat l * 10 + (c.toNat - 48) := by
  simp [digitsToNat, List.foldl_append]

theorem ntc_val : ∀ n, digitsToNat (numToChars n) = n := by
  intro n
  induction n using Nat.strong_induction_on with
  | _ n ih =>
    rw [ntc_unfold]
    by_cases h10 : n < 10
    · rw [if_pos h10]
      simp [digitsToNat, digCh_toNat h10]
    · rw [if_neg h10]
      rw [digitsToNat_append_one, ih (n / 10) (Nat.div_lt_self (by omega) (by omega))]
      rw [digCh_toNat (Nat.mod_lt n (by omega))]
      omega

theorem ntc_len_pow : ∀ k n, 10 ^ k ≤ n ∨ k = 0 → n < 10 ^ (k + 1) →
    (numToChars n).length = k + 1 := by
  intro k
  induction k with
  | zero =>
    intro n _ hup
    rw [ntc_unfold, if_pos (by simpa using hup)]
    rfl
  | succ k ihk =>
    intro n hlow hup
    have hlow' : 10 ^ (k + 1) ≤ n := by
      rcases hlow with h | h
      · exact h
      · omega
    have h10 : ¬ n < 10 := by
      have : (10 : Nat) ≤ 10 ^ (k + 1) := by
        calc (10 : Nat) = 10 ^ 1 := by norm_num
        _ ≤ 10 ^ (k + 1) := Nat.pow_le_pow_right (by omega) (by omega)
      omega
    rw [ntc_unfold, if_neg h10]
    rw [List.length_append]
    have hdl : 10 ^ k ≤ n / 10 := by
      rw [Nat.le_div_iff_mul_le (by omega)]
      calc 10 ^ k * 10 = 10 ^ (k + 1) := by ring
      _ ≤ n := hlow'
    have hdu : n / 10 < 10 ^ (k + 1) := by
      rw [Nat.div_lt_iff_lt_mul (by omega)]
      calc n < 10 ^ (k + 1 + 1) := hup
      _ = 10 ^ (k + 1) * 10 := by ring
    rw [ihk (n / 10) (Or.inl hdl) hdu]
    simp

theorem ntc_len1 {n : Nat} (h : n < 10) : (numToChars n).length = 1 :=
  ntc_len_pow 0 n (Or.inr rfl) (by simpa using h)

theorem ntc_len2 {n : Nat} (h1 : 10 ≤ n) (h2 : n < 100) : (numToChars n).length = 2 :=
  ntc_len_pow 1 n (Or.inl (by simpa using h1)) (by norm_num; omega)

theorem ntc_len3 {n : Nat} (h1 : 100 ≤ n) (h2 : n < 1000) : (numToChars n).length = 3 :=
  ntc_len_pow 2 n (Or.inl (by norm_num; omega)) (by norm_num; omega)

theorem ntc_len4 {n : Nat} (h1 : 1000 ≤ n) (h2 : n < 10000) : (numToChars n).length = 4 :=
  ntc_len_pow 3 n (Or.inl (by norm_num; omega)) (by norm_num; omega)

theorem ntc_ne_nil (n : Nat) : numToChars n ≠ [] := by
  rw [ntc_unfold]
  by_cases h10 : n < 10 <;> simp [h10]

theorem pad2_all_isDig (n : Nat) : ∀ c ∈ pad2 n, isDig c = true := by
  intro c hc
  unfold pad2 at hc
  by_cases h10 : n < 10
  · rw [if_pos h10] at hc
    simp only [List.mem_cons, List.mem_singleton, List.not_mem_nil, or_false] at hc
    rcases hc with h | h
    · rw [h]; rfl
    · rw [h]; exact isDig_digCh n
  · rw [if_neg h10] at hc
    exact ntc_all_isDig n c hc

theorem pad2_len {n : Nat} (h : n < 100) : (pad2 n).length = 2 := by
  unfold pad2
  by_cases h10 : n < 10
  · rw [if_pos h10]; rfl
  · rw [if_neg h10]; exact ntc_len2 (by omega) h

theorem pad2_val {n : Nat} (h : n < 100) : digitsToNat (pad2 n) = n := by
  unfold pad2
  by_cases h10 : n < 10
  · rw [if_pos h10]
    simp [digitsToNat, digCh_toNat h10]
  · rw [if_neg h10]; exact ntc_val n

/-! ## `findTd` and snippet lemmas -/

theorem findTd_spec : ∀ (cands : List (List Char)) (text td : List Char) (i : Nat),
    findTd cands text = some (td, i) → td ∈ cands ∧ findSub text td = some i := by
  intro cands
  induction cands with
  | nil => intro text td i h; cases h
  | cons c rest ih =>
    intro text td i h
    unfold findTd at h
    cases hf : findSub text c with
    | some j =>
      rw [hf] at h
      cases h
      exact ⟨by simp, hf⟩
    | none =>
      rw [hf] at h
      obtain ⟨hm, hs⟩ := ih text td i h
      exact ⟨by simp [hm], hs⟩

theorem take_of_drop_length {text : List Char} {i : Nat} (h : i ≤ text.length) (k : Nat) :
    ((text.drop i).take (min text.length (i + k) - i)) = (text.drop i).take k := by
  have hlen : (text.drop i).length = text.length - i := by simp
  rcases Nat.le_total (i + k) text.length with hle | hle
  · rw [Nat.min_eq_right hle]
    congr 1
    omega
  · rw [Nat.min_eq_left hle]
    rw [List.take_of_length_le (by omega), List.take_of_length_le (by omega)]

/-- **C4.**  When the snippet extractor locates a candidate `td` at offset
`i`, the snippet equals the slice `text[i : min(len(text), i + len(td) + n)]`,
its length never exceeds `len(td) + n`, and the slice never reaches past
`len(text)`. -/
theorem claim_C4 (t : PyDate) (n : Nat) (text td : List Char) (i : Nat)
    (h : findTd (td_candidates t) text = some (td, i)) :
    tableSnippet t n text = (text.drop i).take (min text.length (i + td.length + n) - i) ∧
    (tableSnippet t n text).length ≤ td.length + n ∧
    i + (tableSnippet t n text).length ≤ text.length := by
  have hs := (findTd_spec _ _ _ _ h).2
  obtain ⟨r, hdrop, hle⟩ := findSub_spec text td i hs
  have hi : i ≤ text.length := by omega
  have heq : tableSnippet t n text =
      (text.drop i).take (min text.length (i + td.length + n) - i) := by
    unfold tableSnippet
    rw [h]
  refine ⟨heq, ?_, ?_⟩
  · rw [heq]
    calc ((text.drop i).take (min text.length (i + td.length + n) - i)).length
        ≤ min text.length (i + td.length + n) - i := List.length_take_le _ _
      _ ≤ td.length + n := by omega
  · rw [heq]
    have := List.length_take_le (min text.length (i + td.length + n) - i) (text.drop i)
    have hdl : (text.drop i).length = text.length - i := by simp
    omega

/-- Witness for C4 at the spec's Scenario A: text `"出貨日期: 2025/10/23 已確認"`,
target 2025-10-23, `num_chars = 5`; the candidate `"2025/10/23"` is found at
offset 6 and the snippet is the 15-character slice `"2025/10/23 已確認"`. -/
theorem claim_C4_witness :
    findTd (td_candidates ⟨2025, 10, 23⟩) ("出貨日期: 2025/10/23 已確認".toList) =
      some ("2025/10/23".toList, 6) ∧
    tableSnippet ⟨2025, 10, 23⟩ 5 ("出貨日期: 2025/10/23 已確認".toList) =
      "2025/10/23 已確認".toList ∧
    (tableSnippet ⟨2025, 10, 23⟩ 5 ("出貨日期: 2025/10/23 已確認".toList)).length ≤
      "2025/10/23".toList.length + 5 := by
  have h : findTd (td_candidates ⟨2025, 10, 23⟩) ("出貨日期: 2025/10/23 已確認".toList) =
      some ("2025/10/23".toList, 6) := by decide
  have hc := claim_C4 ⟨2025, 10, 23⟩ 5 ("出貨日期: 2025/10/23 已確認".toList)
    ("2025/10/23".toList) 6 h
  exact ⟨h, by decide, hc.2.1⟩

/-- **C2.**  The enhanced `filter_df_by_date_in_column` (stated for every
recognizer, since its recognizer delegates to the third-party `dateutil`
parser): a record is kept iff its normalized text contains one of the
candidate substrings, or no candidate occurs and the recognizer yields a
date equal to the target; and the output is a sublist (order-preserving
subset) of the input. -/
theorem claim_C2 (recog : List Char → List PyDate) (t : PyDate) (cells : List (List Char)) :
    (∀ text, text ∈ filter_df_by_date_in_column_v2 recog t cells ↔
      text ∈ cells ∧
        (candidateSubstrMatchV2 t (normalize4 text) = true ∨
          (candidateSubstrMatchV2 t (normalize4 text) = false ∧
            (recog (normalize4 text)).any (fun d => d = t) = true))) ∧
    List.Sublist (filter_df_by_date_in_column_v2 recog t cells) cells := by
  constructor
  · intro text
    unfold filter_df_by_date_in_column_v2
    rw [List.mem_filter]
    unfold cellMatchesV2
    by_cases hc : candidateSubstrMatchV2 t (normalize4 text) = true
    · simp [hc]
    · simp only [Bool.not_eq_true] at hc
      simp [hc]
  · exact List.filter_sublist cells

/-- **C6.**  Every `MatchResult` the pipeline hands to an exporter has a
non-empty snippet after stripping whitespace: the final filter removes
empty and whitespace-only snippets before serialization. -/
theorem claim_C6 (recog : List Char → List PyDate) (t : PyDate) (n : Nat)
    (units : List (Nat × List (List Char))) (paras : List (List Char))
    (r : ResultRow) (h : r ∈ pipelineV2 recog t n units paras) :
    pyStrip r.snippet ≠ [] := by
  unfold pipelineV2 at h
  have := (List.mem_filter.mp h).2
  simpa using this

/-- Witness for C6: a concrete run (one table cell containing the ISO
rendering of 2025-10-23, trivial recognizer) whose single output row has a
non-empty stripped snippet. -/
theorem claim_C6_witness :
    (⟨"table_1".toList, "2025-10-23 出貨確認".toList⟩ : ResultRow) ∈
      pipelineV2 (fun _ => []) ⟨2025, 10, 23⟩ 5
        [(0, ["2025-10-23 出貨確認".toList])] [] ∧
    pyStrip (⟨"table_1".toList, "2025-10-23 出貨確認".toList⟩ : ResultRow).snippet ≠ [] := by
  have h : (⟨"table_1".toList, "2025-10-23 出貨確認".toList⟩ : ResultRow) ∈
      pipelineV2 (fun _ => []) ⟨2025, 10, 23⟩ 5
        [(0, ["2025-10-23 出貨確認".toList])] [] := by decide
  exact ⟨h, claim_C6 (fun _ => []) ⟨2025, 10, 23⟩ 5
    [(0, ["2025-10-23 出貨確認".toList])] [] _ h⟩

/-- **C8.**  A syntactically date-like but invalid target string
(`"2025-02-30"`, day out of range for February) fails to parse, and the
main flow then reports the blocking validation error without filtering
anything. -/
theorem claim_C8 :
    parse_to_western_date ("2025-02-30".toList) = none ∧
    ∀ cells : List (List Char), runV4 ("2025-02-30".toList) cells = .error () := by
  have hp : parse_to_western_date ("2025-02-30".toList) = none := by decide
  refine ⟨hp, fun cells => ?_⟩
  unfold runV4
  rw [hp]

/-- **C3, counterexample.**  The claim says the snippet extractor builds the
ordered `DateCandidateString` list (which contains the month/day-only forms,
e.g. the Chinese short form).  For target 2025-10-23 and the cell
`"預計 10月23日 到貨"` the short form `"10月23日"` occurs in the text (raw and
normalized), yet the extractor finds no candidate and returns the empty
snippet: its list has only the three year-bearing forms. -/
theorem claim_C3_counterexample :
    fmtChineseShort ⟨2025, 10, 23⟩ = "10月23日".toList ∧
    containsSub ("預計 10月23日 到貨".toList) (fmtChineseShort ⟨2025, 10, 23⟩) = true ∧
    containsSub (normalize4 ("預計 10月23日 到貨".toList)) (fmtChineseShort ⟨2025, 10, 23⟩) = true ∧
    findTd (td_candidates ⟨2025, 10, 23⟩) ("預計 10月23日 到貨".toList) = none ∧
    tableSnippet ⟨2025, 10, 23⟩ 20 ("預計 10月23日 到貨".toList) = [] := by
  decide

/-- **C3, amended.**  The snippet extractor builds exactly three year-bearing
candidates — `YYYY-MM-DD`, `YYYY/MM/DD`, `YYYY年M月D日` — in that fixed
order, uses the first of them that occurs anywhere in the cell text (not the
longest match, not the earliest overall offset), and takes that candidate's
first occurrence as the snippet start. -/
theorem claim_C3 (t : PyDate) (n : Nat) (text td : List Char) (i : Nat)
    (h : findTd (td_candidates t) text = some (td, i)) :
    findSub text td = some i ∧
    (td = fmtIsoDash t ∨
      (td = fmtIsoSlash t ∧ findSub text (fmtIsoDash t) = none) ∨
      (td = fmtChinese t ∧ findSub text (fmtIsoDash t) = none ∧
        findSub text (fmtIsoSlash t) = none)) ∧
    tableSnippet t n text = (text.drop i).take (min text.length (i + td.length + n) - i) := by
  have hsnip : tableSnippet t n text =
      (text.drop i).take (min text.length (i + td.length + n) - i) := by
    unfold tableSnippet
    rw [h]
  unfold td_candidates at h
  unfold findTd at h
  cases h1 : findSub text (fmtIsoDash t) with
  | some j =>
    rw [h1] at h
    cases h
    exact ⟨h1, Or.inl rfl, hsnip⟩
  | none =>
    rw [h1] at h
    unfold findTd at h
    cases h2 : findSub text (fmtIsoSlash t) with
    | some j =>
      rw [h2] at h
      cases h
      exact ⟨h2, Or.inr (Or.inl ⟨rfl, rfl⟩), hsnip⟩
    | none =>
      rw [h2] at h
      unfold findTd at h
      cases h3 : findSub text (fmtChinese t) with
      | some j =>
        rw [h3] at h
        cases h
        exact ⟨h3, Or.inr (Or.inr ⟨rfl, rfl, rfl⟩), hsnip⟩
      | none =>
        rw [h3] at h
        unfold findTd at h
        cases h

/-- Witness for the amended C3: in `"A 2025/10/23 B 2025-10-23"` the
slash form occurs before the dash form, but the extractor picks the dash
form (first in priority order) at its occurrence, offset 15 — not the
candidate with the earliest overall offset. -/
theorem claim_C3_witness :
    findTd (td_candidates ⟨2025, 10, 23⟩) ("A 2025/10/23 B 2025-10-23".toList) =
      some ("2025-10-23".toList, 15) ∧
    findSub ("A 2025/10/23 B 2025-10-23".toList) ("2025-10-23".toList) = some 15 ∧
    "2025-10-23".toList = fmtIsoDash ⟨2025, 10, 23⟩ := by
  have h : findTd (td_candidates ⟨2025, 10, 23⟩) ("A 2025/10/23 B 2025-10-23".toList) =
      some ("2025-10-23".toList, 15) := by decide
  have hc := claim_C3 ⟨2025, 10, 23⟩ 5 ("A 2025/10/23 B 2025-10-23".toList)
    ("2025-10-23".toList) 15 h
  exact ⟨h, hc.1, by decide⟩

/-- **C5, counterexample.**  `"1999/10/23"` is a year-bearing date in a
different year than the target 2025-10-23 — the recognizer sees exactly
`[1999-10-23]` — yet the filter matches the record, because the target's
year-omitted candidate `"10/23"` occurs inside `"1999/10/23"` as a
substring.  A year-bearing date in a different year can produce a match. -/
theorem claim_C5_counterexample :
    find_date_like_in_text (normalize3 ("1999/10/23".toList)) =
      [⟨1999, 10, 23⟩] ∧
    candidateSubstrMatchV4 ⟨2025, 10, 23⟩ (normalize3 ("1999/10/23".toList)) = true ∧
    cellMatchesV4 ⟨2025, 10, 23⟩ ("1999/10/23".toList) = true := by
  decide

/-- **C5, amended.**  Year-omitted forms match irrespective of the target's
year: if the normalized text contains the `M/D` or `M月D日` rendering of the
target's month and day, the record matches for every target year.  The
recognizer fallback alone matches only on exact year, month and day — but a
year-bearing date of a different year can still produce a match through an
embedded year-omitted substring (see the counterexample). -/
theorem claim_C5 (y y' m d : Nat) (text : List Char) :
    (containsSub (normalize3 text) (fmtMD ⟨y, m, d⟩) = true →
      cellMatchesV4 ⟨y', m, d⟩ text = true) ∧
    (containsSub (normalize3 text) (fmtChineseShort ⟨y, m, d⟩) = true →
      cellMatchesV4 ⟨y', m, d⟩ text = true) ∧
    (candidateSubstrMatchV4 ⟨y', m, d⟩ (normalize3 text) = false →
      cellMatchesV4 ⟨y', m, d⟩ text = true →
      ∃ e ∈ find_date_like_in_text (normalize3 text),
        e.year = y' ∧ e.month = m ∧ e.day = d) := by
  refine ⟨?_, ?_, ?_⟩
  · intro h
    have hmd : fmtMD ⟨y, m, d⟩ = fmtMD ⟨y', m, d⟩ := rfl
    rw [hmd] at h
    unfold cellMatchesV4
    have hsub : candidateSubstrMatchV4 ⟨y', m, d⟩ (normalize3 text) = true := by
      unfold candidateSubstrMatchV4 tdStrsV4
      simp [h]
    rw [if_pos hsub]
  · intro h
    have hmd : fmtChineseShort ⟨y, m, d⟩ = fmtChineseShort ⟨y', m, d⟩ := rfl
    rw [hmd] at h
    unfold cellMatchesV4
    have hsub : candidateSubstrMatchV4 ⟨y', m, d⟩ (normalize3 text) = true := by
      unfold candidateSubstrMatchV4
      simp [h]
    rw [if_pos hsub]
  · intro hno hmatch
    unfold cellMatchesV4 at hmatch
    rw [if_neg (by simp [hno])] at hmatch
    obtain ⟨e, he, hp⟩ := List.any_eq_true.mp hmatch
    exact ⟨e, he, by simpa using hp⟩

/-- Witness for the amended C5: the year-omitted text `"預計 10/23 出貨"`
matches target 2025-10-23 (and the rendering used is the year-independent
`"10/23"`, built here from the different year 2024). -/
theorem claim_C5_witness :
    containsSub (normalize3 ("預計 10/23 出貨".toList)) (fmtMD ⟨2024, 10, 23⟩) = true ∧
    cellMatchesV4 ⟨2025, 10, 23⟩ ("預計 10/23 出貨".toList) = true := by
  have h : containsSub (normalize3 ("預計 10/23 出貨".toList)) (fmtMD ⟨2024, 10, 23⟩) = true := by
    decide
  exact ⟨h, (claim_C5 2024 2025 10 23 ("預計 10/23 出貨".toList)).1 h⟩

/-! ## Paragraph search lemmas (C10) and the fallback guard (C9) -/

theorem paraSearch_spec (recog : List Char → List PyDate) (t : PyDate) (n : Nat) :
    ∀ (paras : List (List Char)) (k i : Nat) (s : List Char),
    (i, s) ∈ paraSearch recog t n k paras →
    k ≤ i ∧ ∃ txt, paras[i - k]? = some txt ∧
      (recog txt).any (fun d => d = t) = true ∧
      ∃ td j, td ∈ td_candidates t ∧ findTd (td_candidates t) txt = some (td, j) ∧
        td.isPrefixOf s = true ∧
        s = (txt.drop j).take (min txt.length (j + td.length + n) - j) := by
  intro paras
  induction paras with
  | nil => intro k i s h; simp [paraSearch] at h
  | cons txt rest ih =>
    intro k i s h
    unfold paraSearch at h
    rcases List.mem_append.mp h with hl | hr
    · cases hrec : (recog txt).any (fun d => d = t) with
      | false => rw [hrec] at hl; simp at hl
      | true =>
        rw [hrec] at hl
        simp only [if_true] at hl
        cases hft : findTd (td_candidates t) txt with
        | none => rw [hft] at hl; simp at hl
        | some p =>
          obtain ⟨td, j⟩ := p
          rw [hft] at hl
          simp only [List.mem_singleton, Prod.mk.injEq] at hl
          obtain ⟨rfl, rfl⟩ := hl
          refine ⟨le_refl _, txt, by simp, hrec, td, j, (findTd_spec _ _ _ _ hft).1, hft, ?_, rfl⟩
          obtain ⟨r, hdrop, hle⟩ := findSub_spec txt td j (findTd_spec _ _ _ _ hft).2
          rw [hdrop, List.take_append_eq_append_take,
            List.take_of_length_le (le_trans (le_refl _) (by omega))]
          exact prefixOf_append_self td _
    · obtain ⟨hki, txt', hget, hrest⟩ := ih (k + 1) i s hr
      refine ⟨by omega, txt', ?_, hrest⟩
      have : i - k = (i - (k + 1)) + 1 := by omega
      rw [this]
      simpa using hget

/-- **C10.**  A paragraph contributes a result only if the recognizer
matched the target in it AND one of exactly three literal renderings
(`YYYY-MM-DD`, `YYYY/MM/DD`, `YYYY年M月D日`) occurs verbatim in the raw,
un-normalized paragraph text; the snippet then begins with that rendering.
A paragraph whose date is found only by the recognizer (with no literal
candidate substring) contributes nothing. -/
theorem claim_C10 (recog : List Char → List PyDate) (t : PyDate) (n : Nat)
    (paras : List (List Char)) (i : Nat) (s : List Char)
    (h : (i, s) ∈ paraSearch recog t n 0 paras) :
    ∃ txt, paras[i]? = some txt ∧
      (recog txt).any (fun d => d = t) = true ∧
      ∃ td j, td ∈ td_candidates t ∧ findTd (td_candidates t) txt = some (td, j) ∧
        td.isPrefixOf s = true ∧
        s = (txt.drop j).take (min txt.length (j + td.length + n) - j) := by
  have := (paraSearch_spec recog t n paras 0 i s h).2
  simpa using this

/-- Witness for C10: with the in-repository recognizer, the paragraph
`"2025-10-23開會"` contributes its snippet, which indeed begins with the
located candidate. -/
theorem claim_C10_witness :
    ((0, "2025-10-23開會".toList) ∈
      paraSearch find_date_like_in_text ⟨2025, 10, 23⟩ 20 0 ["2025-10-23開會".toList]) ∧
    (∃ txt, (["2025-10-23開會".toList] : List (List Char))[(0 : Nat)]? = some txt ∧
      (find_date_like_in_text txt).any (fun d => d = (⟨2025, 10, 23⟩ : PyDate)) = true ∧
      ∃ td j, td ∈ td_candidates ⟨2025, 10, 23⟩ ∧
        findTd (td_candidates ⟨2025, 10, 23⟩) txt = some (td, j) ∧
        td.isPrefixOf ("2025-10-23開會".toList) = true ∧
        "2025-10-23開會".toList =
          (txt.drop j).take (min txt.length (j + td.length + 20) - j)) := by
  have h : (0, "2025-10-23開會".toList) ∈
      paraSearch find_date_like_in_text ⟨2025, 10, 23⟩ 20 0 ["2025-10-23開會".toList] := by
    decide
  exact ⟨h, claim_C10 find_date_like_in_text ⟨2025, 10, 23⟩ 20 ["2025-10-23開會".toList]
    0 ("2025-10-23開會".toList) h⟩

theorem tableLabel_ne_paraLabel (i : Nat) : tableLabel i ≠ paraLabel := by
  unfold tableLabel paraLabel
  intro hEq
  have h1 : "table_".toList = 't' :: "able_".toList := rfl
  have h2 : "paragraphs".toList = 'p' :: "aragraphs".toList := rfl
  rw [h1, h2] at hEq
  simp only [List.cons_append, List.cons.injEq] at hEq
  exact absurd hEq.1 (by decide)

/-- **C9, counterexample.**  For target 2025-10-23, the table cell
`"備註 10/23"` matches the date filter (via the year-omitted candidate), but
its snippet is empty (none of the three snippet candidates occurs), so the
table pass contributes no result rows — and the paragraph search then runs
and produces a paragraph-sourced result.  A matched table row does not
prevent the paragraph scan. -/
theorem claim_C9_counterexample :
    cellMatchesV2 find_date_like_in_text ⟨2025, 10, 23⟩ ("備註 10/23".toList) = true ∧
    (pipelineV2 find_date_like_in_text ⟨2025, 10, 23⟩ 20
        [(0, ["備註 10/23".toList])] ["2025-10-23開會".toList]).map ResultRow.source =
      [paraLabel] := by
  decide

/-- **C9, amended.**  The paragraph pass runs only when the table pass
produced zero result frames (matched rows surviving the non-empty-snippet
filter): whenever the table pass contributes at least one frame, no
paragraph-sourced row can appear in the output.  A table row that matches
the filter but yields an empty snippet does not count and does not suppress
the paragraph search. -/
theorem claim_C9 (recog : List Char → List PyDate) (t : PyDate) (n : Nat)
    (units : List (Nat × List (List Char))) (paras : List (List Char))
    (h : tableResultsV2 recog t n units ≠ []) :
    ∀ r ∈ pipelineV2 recog t n units paras, r.source ≠ paraLabel := by
  intro r hr
  unfold pipelineV2 at hr
  rw [if_neg h] at hr
  have hmem := (List.mem_filter.mp hr).1
  obtain ⟨l, hl, hrl⟩ := List.mem_flatten.mp hmem
  obtain ⟨u, _, hu⟩ := List.mem_filterMap.mp hl
  unfold tableUnit at hu
  by_cases hm : (u.2.filter (cellMatchesV2 recog t)) = []
  · rw [if_pos hm] at hu; cases hu
  · rw [if_neg hm] at hu
    by_cases hrow : unitRows recog t n u.2 = []
    · rw [if_pos hrow] at hu; cases hu
    · rw [if_neg hrow] at hu
      cases hu
      obtain ⟨s, _, hs⟩ := List.mem_map.mp hrl
      rw [← hs]
      exact tableLabel_ne_paraLabel u.1

/-! ## `spanDigits` and ROC-parse lemmas (C7) -/

theorem spanDigits_append (ds r : List Char) (hd : ∀ c ∈ ds, isDig c = true)
    (hr : ∀ c cs, r = c :: cs → isDig c = false) : spanDigits (ds ++ r) = (ds, r) := by
  induction ds with
  | nil =>
    cases r with
    | nil => rfl
    | cons c cs =>
      simp only [List.nil_append]
      unfold spanDigits
      rw [hr c cs rfl]
      simp
  | cons d ds' ih =>
    simp only [List.cons_append]
    unfold spanDigits
    rw [hd d (by simp)]
    simp only [if_true]
    rw [ih (fun c hc => hd c (by simp [hc]))]

theorem spanDigits_all (ds : List Char) (hd : ∀ c ∈ ds, isDig c = true) :
    spanDigits ds = (ds, []) := by
  have := spanDigits_append ds [] hd (by intro c cs h; cases h)
  simpa using this

theorem daysInMonth_le (y m : Nat) : daysInMonth y m ≤ 31 := by
  unfold daysInMonth
  split_ifs <;> omega

theorem sep_not_dig {sep : Char} (hsep : sep = '/' ∨ sep = '-') : isDig sep = false := by
  rcases hsep with rfl | rfl <;> decide

theorem sep_not_space {sep : Char} (hsep : sep = '/' ∨ sep = '-') : isPySpace sep = false := by
  rcases hsep with rfl | rfl <;> decide

theorem sep_norm3 {sep : Char} (hsep : sep = '/' ∨ sep = '-') : normChar3 sep = sep := by
  rcases hsep with rfl | rfl <;> decide

/-- The ROC-regex branch of `parse_to_western_date` on a clean
`A sep B sep C` numeric triple with a 2–3 digit first group: the Gregorian
year is `A + 1911` when `A < 200` and `A` itself otherwise. -/
theorem parse_roc_shape (a b c : Nat) (sep : Char) (hsep : sep = '/' ∨ sep = '-')
    (ha1 : 10 ≤ a) (ha2 : a ≤ 999) (hb1 : 1 ≤ b) (hb2 : b ≤ 12) (hc1 : 1 ≤ c)
    (hc2 : c ≤ daysInMonth (if a < 200 then a + 1911 else a) b) :
    parse_to_western_date (numToChars a ++ sep :: (numToChars b ++ sep :: numToChars c)) =
      some ⟨if a < 200 then a + 1911 else a, b, c⟩ := by
  have hmem : ∀ x ∈ numToChars a ++ sep :: (numToChars b ++ sep :: numToChars c),
      isDig x = true ∨ x = sep := by
    intro x hx
    rcases List.mem_append.mp hx with h | h
    · exact Or.inl (ntc_all_isDig a x h)
    · rcases List.mem_cons.mp h with h | h
      · exact Or.inr h
      · rcases List.mem_append.mp h with h2 | h2
        · exact Or.inl (ntc_all_isDig b x h2)
        · rcases List.mem_cons.mp h2 with h2 | h2
          · exact Or.inr h2
          · exact Or.inl (ntc_all_isDig c x h2)
  have hstrip : pyStrip (numToChars a ++ sep :: (numToChars b ++ sep :: numToChars c)) =
      numToChars a ++ sep :: (numToChars b ++ sep :: numToChars c) := by
    apply pyStrip_id
    intro x hx
    rcases hmem x hx with h | h
    · exact isDig_not_space h
    · rw [h]; exact sep_not_space hsep
  have hnorm : normalize3 (numToChars a ++ sep :: (numToChars b ++ sep :: numToChars c)) =
      numToChars a ++ sep :: (numToChars b ++ sep :: numToChars c) := by
    apply norm3_id
    intro x hx
    rcases hmem x hx with h | h
    · exact isDig_norm3 h
    · rw [h]; exact sep_norm3 hsep
  have hspan1 : spanDigits (numToChars a ++ sep :: (numToChars b ++ sep :: numToChars c)) =
      (numToChars a, sep :: (numToChars b ++ sep :: numToChars c)) := by
    apply spanDigits_append _ _ (ntc_all_isDig a)
    intro x cs h
    cases h
    exact sep_not_dig hsep
  have hspan2 : spanDigits (numToChars b ++ sep :: numToChars c) =
      (numToChars b, sep :: numToChars c) := by
    apply spanDigits_append _ _ (ntc_all_isDig b)
    intro x cs h
    cases h
    exact sep_not_dig hsep
  have hspan3 : spanDigits (numToChars c) = (numToChars c, []) :=
    spanDigits_all _ (ntc_all_isDig c)
  have hla : (numToChars a).length = 2 ∨ (numToChars a).length = 3 := by
    by_cases h100 : a < 100
    · exact Or.inl (ntc_len2 ha1 h100)
    · exact Or.inr (ntc_len3 (by omega) (by omega))
  have hlb : (numToChars b).length = 1 ∨ (numToChars b).length = 2 := by
    by_cases h10 : b < 10
    · exact Or.inl (ntc_len1 h10)
    · exact Or.inr (ntc_len2 (by omega) (by omega))
  have hlc : (numToChars c).length = 1 ∨ (numToChars c).length = 2 := by
    have h31 : c ≤ 31 := le_trans hc2 (daysInMonth_le _ _)
    by_cases h10 : c < 10
    · exact Or.inl (ntc_len1 h10)
    · exact Or.inr (ntc_len2 (by omega) (by omega))
  have hcond : 2 ≤ (numToChars a).length ∧ (numToChars a).length ≤ 3 ∧ isSep sep = true ∧
      1 ≤ (numToChars b).length ∧ (numToChars b).length ≤ 2 ∧ isSep sep = true ∧
      1 ≤ (numToChars c).length ∧ (numToChars c).length ≤ 2 ∧ ([] : List Char) = [] :=
    ⟨by omega, by omega, by rcases hsep with rfl | rfl <;> decide, by omega, by omega,
     by rcases hsep with rfl | rfl <;> decide, by omega, by omega, rfl⟩
  have hroc : rocTriple (numToChars a ++ sep :: (numToChars b ++ sep :: numToChars c)) =
      some (a, b, c) := by
    unfold rocTriple
    rw [hspan1]
    dsimp only
    rw [hspan2]
    dsimp only
    rw [hspan3]
    dsimp only
    rw [if_pos hcond]
    rw [ntc_val, ntc_val, ntc_val]
  have hy1 : 1 ≤ (if a < 200 then a + 1911 else a) := by split_ifs <;> omega
  have hy2 : (if a < 200 then a + 1911 else a) ≤ 9999 := by split_ifs <;> omega
  unfold parse_to_western_date
  rw [hstrip, hnorm, hroc]
  dsimp only
  unfold mkDate
  rw [if_pos ⟨hy1, hy2, hb1, hb2, hc1, hc2⟩]

/-- **C7.**  A 2–3 digit leading group `A` in an `A/B/C` (or `A-B-C`) triple
is treated as an ROC year when `A < 200` (Gregorian year `A + 1911`) and as
an already-Gregorian year otherwise; in particular `"114/10/23"` parses to
2025-10-23 and the text `"交期 114/10/23"` matches target 2025-10-23. -/
theorem claim_C7 :
    (∀ (a b c : Nat) (sep : Char), (sep = '/' ∨ sep = '-') →
      10 ≤ a → a ≤ 999 → 1 ≤ b → b ≤ 12 → 1 ≤ c →
      c ≤ daysInMonth (if a < 200 then a + 1911 else a) b →
      parse_to_western_date (numToChars a ++ sep :: (numToChars b ++ sep :: numToChars c)) =
        some ⟨if a < 200 then a + 1911 else a, b, c⟩) ∧
    parse_to_western_date ("114/10/23".toList) = some ⟨2025, 10, 23⟩ ∧
    parse_to_western_date ("250/10/23".toList) = some ⟨250, 10, 23⟩ ∧
    cellMatchesV4 ⟨2025, 10, 23⟩ ("交期 114/10/23".toList) = true := by
  refine ⟨fun a b c sep hsep ha1 ha2 hb1 hb2 hc1 hc2 =>
    parse_roc_shape a b c sep hsep ha1 ha2 hb1 hb2 hc1 hc2, by decide, by decide, by decide⟩

/-- Witness for C7: the universal part applied at the concrete ROC triple
(114, 10, 23), whose rendering is `"114/10/23"` and whose Gregorian year is
114 + 1911 = 2025. -/
theorem claim_C7_witness :
    ((10 ≤ 114 ∧ (114 : Nat) ≤ 999 ∧ 23 ≤ daysInMonth 2025 10) ∧
      parse_to_western_date
          (numToChars 114 ++ '/' :: (numToChars 10 ++ '/' :: numToChars 23)) =
        some ⟨2025, 10, 23⟩) ∧
    numToChars 114 ++ '/' :: (numToChars 10 ++ '/' :: numToChars 23) = "114/10/23".toList := by
  refine ⟨⟨by decide, ?_⟩, by decide⟩
  have := claim_C7.1 114 10 23 '/' (Or.inl rfl) (by decide) (by decide) (by decide)
    (by decide) (by decide) (by decide)
  simpa using this

/-- Witness for the amended C9: a run whose table pass produced a frame, so
that the theorem applies and no paragraph row appears. -/
theorem claim_C9_witness :
    tableResultsV2 (fun _ => []) ⟨2025, 10, 23⟩ 5 [(0, ["2025-10-23 出貨確認".toList])] ≠ [] ∧
    ∀ r ∈ pipelineV2 (fun _ => []) ⟨2025, 10, 23⟩ 5
        [(0, ["2025-10-23 出貨確認".toList])] ["2025-10-23 別頁".toList],
      r.source ≠ paraLabel := by
  have h : tableResultsV2 (fun _ => []) ⟨2025, 10, 23⟩ 5
      [(0, ["2025-10-23 出貨確認".toList])] ≠ [] := by decide
  exact ⟨h, claim_C9 (fun _ => []) ⟨2025, 10, 23⟩ 5 [(0, ["2025-10-23 出貨確認".toList])]
    ["2025-10-23 別頁".toList] h⟩

/-! ## Matcher evaluation lemmas (towards C1)

These compute `mt` / `finditer` on strings decomposed into digit runs and
separator or CJK literal characters, mirroring the backtracking analysis of
the three source patterns. -/

theorem dropDigits_exact (ds r : List Char) (hd : ∀ c ∈ ds, isDig c = true) :
    dropDigits ds.length (ds ++ r) = some r := by
  induction ds with
  | nil => rfl
  | cons d ds' ih =>
    simp only [List.length_cons, List.cons_append]
    unfold dropDigits
    rw [hd d (by simp)]
    simp only [if_true]
    exact ih (fun c hc => hd c (by simp [hc]))

theorem dropDigits_toomany (n : Nat) (ds r : List Char) (hd : ∀ c ∈ ds, isDig c = true)
    (hn : ds.length < n) (hr : ∀ c cs, r = c :: cs → isDig c = false) :
    dropDigits n (ds ++ r) = none := by
  induction ds generalizing n with
  | nil =>
    cases n with
    | zero => omega
    | succ k =>
      cases r with
      | nil => rfl
      | cons c cs =>
        simp only [List.nil_append]
        unfold dropDigits
        rw [hr c cs rfl]
        simp
  | cons d ds' ih =>
    cases n with
    | zero => omega
    | succ k =>
      simp only [List.cons_append]
      unfold dropDigits
      rw [hd d (by simp)]
      simp only [if_true]
      exact ih k (fun c hc => hd c (List.mem_cons_of_mem d hc)) (by simp at hn; omega)

theorem dropDigits_allDig (n : Nat) (s : List Char) (hs : ∀ c ∈ s, isDig c = true) :
    dropDigits n s = if n ≤ s.length then some (s.drop n) else none := by
  induction n generalizing s with
  | zero => simp [dropDigits]
  | succ k ih =>
    cases s with
    | nil => simp [dropDigits]
    | cons c t =>
      unfold dropDigits
      rw [hs c (by simp)]
      simp only [if_true]
      rw [ih t (fun x hx => hs x (by simp [hx]))]
      simp only [List.length_cons, List.drop_succ_cons]
      by_cases hk : k ≤ t.length
      · rw [if_pos hk, if_pos (by omega)]
      · rw [if_neg hk, if_neg (by omega)]

theorem orElse_some {x y : Option Nat} {k : Nat} (h : (x <|> y) = some k) :
    x = some k ∨ (x = none ∧ y = some k) := by
  cases x with
  | some v => left; simpa [Option.orElse] using h
  | none => right; exact ⟨rfl, by simpa [Option.orElse] using h⟩

theorem some_orElse (x : Option Nat) (k : Nat) : (some k <|> x) = some k := by
  simp [Option.orElse]

theorem none_orElse (x : Option Nat) : ((none : Option Nat) <|> x) = x := by
  simp [Option.orElse]

/-- `mt` on the token `digits 3 4` with a 3–4 digit run followed by a
non-digit (or the end): consume exactly the run. -/
theorem mt_d34 (f : Nat) (rest : List RTok) (ds r : List Char) (k : Nat)
    (hd : ∀ c ∈ ds, isDig c = true) (hr : ∀ c cs, r = c :: cs → isDig c = false)
    (hl : ds.length = 3 ∨ ds.length = 4) (hcont : mt f rest r = some k) :
    mt (f + 1) (.digits 3 4 :: rest) (ds ++ r) = some (k + ds.length) := by
  rcases hl with hl | hl
  · have h4 : dropDigits 4 (ds ++ r) = none := dropDigits_toomany 4 ds r hd (by omega) hr
    have h3 : dropDigits 3 (ds ++ r) = some r := by
      conv_lhs => rw [show (3 : Nat) = ds.length from hl.symm]
      exact dropDigits_exact ds r hd
    unfold mt
    dsimp only
    rw [h4, h3]
    simp [Option.orElse, hcont, hl]
  · have h4 : dropDigits 4 (ds ++ r) = some r := by
      conv_lhs => rw [show (4 : Nat) = ds.length from hl.symm]
      exact dropDigits_exact ds r hd
    unfold mt
    dsimp only
    rw [h4]
    simp [Option.orElse, hcont, hl]

/-- `mt` on the token `digits 1 2` with a 1–2 digit run followed by a
non-digit (or the end): consume exactly the run. -/
theorem mt_d12 (f : Nat) (rest : List RTok) (ds r : List Char) (k : Nat)
    (hd : ∀ c ∈ ds, isDig c = true) (hr : ∀ c cs, r = c :: cs → isDig c = false)
    (hl : ds.length = 1 ∨ ds.length = 2) (hcont : mt f rest r = some k) :
    mt (f + 1) (.digits 1 2 :: rest) (ds ++ r) = some (k + ds.length) := by
  rcases hl with hl | hl
  · have h4 : dropDigits 4 (ds ++ r) = none := dropDigits_toomany 4 ds r hd (by omega) hr
    have h3 : dropDigits 3 (ds ++ r) = none := dropDigits_toomany 3 ds r hd (by omega) hr
    have h2 : dropDigits 2 (ds ++ r) = none := dropDigits_toomany 2 ds r hd (by omega) hr
    have h1 : dropDigits 1 (ds ++ r) = some r := by
      conv_lhs => rw [show (1 : Nat) = ds.length from hl.symm]
      exact dropDigits_exact ds r hd
    unfold mt
    dsimp only
    rw [h4, h3, h2, h1]
    simp [Option.orElse, hcont, hl]
  · have h4 : dropDigits 4 (ds ++ r) = none := dropDigits_toomany 4 ds r hd (by omega) hr
    have h3 : dropDigits 3 (ds ++ r) = none := dropDigits_toomany 3 ds r hd (by omega) hr
    have h2 : dropDigits 2 (ds ++ r) = some r := by
      conv_lhs => rw [show (2 : Nat) = ds.length from hl.symm]
      exact dropDigits_exact ds r hd
    unfold mt
    dsimp only
    rw [h4, h3, h2]
    simp [Option.orElse, hcont, hl]

/-- `mt` across a separator character. -/
theorem mt_sep_cons (f : Nat) (rest : List RTok) (sep : Char) (s : List Char) (k : Nat)
    (hsep : isSep sep = true) (hcont : mt f rest s = some k) :
    mt (f + 1) (.sepTok :: rest) (sep :: s) = some (k + 1) := by
  unfold mt
  dsimp only
  rw [hsep]
  simp [hcont]

/-- `mt` across a literal character. -/
theorem mt_lit_cons (f : Nat) (rest : List RTok) (ch : Char) (s : List Char) (k : Nat)
    (hcont : mt f rest s = some k) :
    mt (f + 1) (.lit ch :: rest) (ch :: s) = some (k + 1) := by
  unfold mt
  dsimp only
  simp [hcont]

theorem mt_nil_toks (f : Nat) (s : List Char) : mt (f + 1) [] s = some 0 := rfl

/-- A separator token fails on an all-digit string (or the end). -/
theorem mt_sep_allDig (f : Nat) (rest : List RTok) (s : List Char)
    (hs : ∀ c ∈ s, isDig c = true) : mt (f + 1) (.sepTok :: rest) s = none := by
  cases s with
  | nil => rfl
  | cons c t =>
    unfold mt
    dsimp only
    rw [isDig_not_sep (hs c (by simp))]
    simp

/-- A literal token for a non-digit character fails on an all-digit string
(or the end). -/
theorem mt_lit_allDig (f : Nat) (rest : List RTok) (ch : Char) (s : List Char)
    (hs : ∀ c ∈ s, isDig c = true) (hch : isDig ch = false) :
    mt (f + 1) (.lit ch :: rest) s = none := by
  cases s with
  | nil => rfl
  | cons c t =>
    have hc : isDig c = true := hs c (by simp)
    unfold mt
    dsimp only
    rw [if_neg]
    intro hEq
    rw [hEq] at hc
    rw [hc] at hch
    cases hch

/-- A digit-run token whose continuation rejects every all-digit string
fails on an all-digit string. -/
theorem mt_digits_allDig (f : Nat) (lo hi : Nat) (rest : List RTok) (s : List Char)
    (hs : ∀ c ∈ s, isDig c = true)
    (hrest : ∀ s', (∀ c ∈ s', isDig c = true) → mt f rest s' = none) :
    mt (f + 1) (.digits lo hi :: rest) s = none := by
  have hatt : ∀ n : Nat,
      (match dropDigits n s with
        | some s' => Option.map (fun x => x + n) (mt f rest s')
        | none => none) = (none : Option Nat) := by
    intro n
    rw [dropDigits_allDig n s hs]
    by_cases hn : n ≤ s.length
    · rw [if_pos hn]
      dsimp only
      rw [hrest (s.drop n) (fun c hc => hs c (List.mem_of_mem_drop hc))]
      rfl
    · rw [if_neg hn]
  unfold mt
  dsimp only
  rw [hatt 4, hatt 3, hatt 2, hatt 1]
  simp [Option.orElse]

/-- `dropDigits` on a digit run followed by a non-digit character. -/
theorem dropDigits_run (n : Nat) (ds : List Char) (e : Char) (tail : List Char)
    (hd : ∀ c ∈ ds, isDig c = true) (he : isDig e = false) :
    dropDigits n (ds ++ e :: tail) =
      if n ≤ ds.length then some (ds.drop n ++ e :: tail) else none := by
  induction ds generalizing n with
  | nil =>
    cases n with
    | zero => simp [dropDigits]
    | succ k =>
      simp only [List.nil_append]
      unfold dropDigits
      rw [he]
      simp
  | cons d ds' ih =>
    cases n with
    | zero => simp [dropDigits]
    | succ k =>
      simp only [List.cons_append]
      unfold dropDigits
      rw [hd d (by simp)]
      simp only [if_true]
      rw [ih k (fun c hc => hd c (List.mem_cons_of_mem d hc))]
      simp only [List.length_cons, List.drop_succ_cons]
      by_cases hk : k ≤ ds'.length
      · rw [if_pos hk, if_pos (by omega)]
      · rw [if_neg hk, if_neg (by omega)]

/-- A literal token for a non-digit character fails on a digit run followed
by a different non-digit character. -/
theorem mt_lit_run_fail (f : Nat) (rest : List RTok) (ch : Char) (ds : List Char)
    (e : Char) (tail : List Char) (hd : ∀ c ∈ ds, isDig c = true)
    (hch : isDig ch = false) (hne : e ≠ ch) :
    mt (f + 1) (.lit ch :: rest) (ds ++ e :: tail) = none := by
  cases ds with
  | nil =>
    simp only [List.nil_append]
    unfold mt
    dsimp only
    rw [if_neg hne]
  | cons d ds' =>
    have hc : isDig d = true := hd d (by simp)
    simp only [List.cons_append]
    unfold mt
    dsimp only
    rw [if_neg]
    intro hEq
    rw [hEq] at hc
    rw [hc] at hch
    cases hch

/-- A digit-run token followed by a non-digit literal fails when the text is
a digit run followed by a character that is neither a digit nor that
literal. -/
theorem mt_digits_litfail (f lo hi : Nat) (ch : Char) (rest : List RTok)
    (ds : List Char) (e : Char) (tail : List Char) (hd : ∀ c ∈ ds, isDig c = true)
    (he : isDig e = false) (hch : isDig ch = false) (hne : e ≠ ch) :
    mt (f + 1) (.digits lo hi :: .lit ch :: rest) (ds ++ e :: tail) = none := by
  have hcont : ∀ s', (∃ ds', (∀ c ∈ ds', isDig c = true) ∧ s' = ds' ++ e :: tail) →
      mt f (.lit ch :: rest) s' = none := by
    rintro s' ⟨ds', hds', rfl⟩
    cases f with
    | zero => rfl
    | succ f' => exact mt_lit_run_fail f' rest ch ds' e tail hds' hch hne
  have hatt : ∀ n : Nat,
      (match dropDigits n (ds ++ e :: tail) with
        | some s' => Option.map (fun x => x + n) (mt f (.lit ch :: rest) s')
        | none => none) = (none : Option Nat) := by
    intro n
    rw [dropDigits_run n ds e tail hd he]
    by_cases hn : n ≤ ds.length
    · rw [if_pos hn]
      dsimp only
      rw [hcont (ds.drop n ++ e :: tail)
        ⟨ds.drop n, fun c hc => hd c (List.mem_of_mem_drop hc), rfl⟩]
      rfl
    · rw [if_neg hn]
  unfold mt
  dsimp only
  rw [hatt 4, hatt 3, hatt 2, hatt 1]
  simp [Option.orElse]

/-! ## Whole-pattern lemmas -/

theorem matchPat1_whole (yc mc dc : List Char) (sep : Char)
    (hy : ∀ c ∈ yc, isDig c = true) (hm : ∀ c ∈ mc, isDig c = true)
    (hd : ∀ c ∈ dc, isDig c = true) (hsep : isSep sep = true)
    (hsd : isDig sep = false)
    (hly : yc.length = 3 ∨ yc.length = 4) (hlm : mc.length = 1 ∨ mc.length = 2)
    (hld : dc.length = 1 ∨ dc.length = 2) :
    matchPat pat1 (yc ++ sep :: (mc ++ sep :: dc)) =
      some ((((0 + dc.length) + 1) + mc.length + 1) + yc.length) := by
  have h5 : mt 1 [] ([] : List Char) = some 0 := mt_nil_toks 0 []
  have h4 : mt 2 [.digits 1 2] dc = some (0 + dc.length) := by
    have := mt_d12 1 [] dc [] 0 hd (by intro c cs h; cases h) hld h5
    simpa using this
  have h3 : mt 3 [.sepTok, .digits 1 2] (sep :: dc) = some ((0 + dc.length) + 1) :=
    mt_sep_cons 2 [.digits 1 2] sep dc (0 + dc.length) hsep h4
  have h2 : mt 4 [.digits 1 2, .sepTok, .digits 1 2] (mc ++ sep :: dc) =
      some (((0 + dc.length) + 1) + mc.length) :=
    mt_d12 3 [.sepTok, .digits 1 2] mc (sep :: dc) ((0 + dc.length) + 1) hm
      (by intro c cs h; cases h; exact hsd) hlm h3
  have h1 : mt 5 [.sepTok, .digits 1 2, .sepTok, .digits 1 2] (sep :: (mc ++ sep :: dc)) =
      some ((((0 + dc.length) + 1) + mc.length) + 1) :=
    mt_sep_cons 4 _ sep _ _ hsep h2
  exact mt_d34 5 _ yc _ _ hy (by intro c cs h; cases h; exact hsd) hly h1

theorem matchPat2_whole (mc dc : List Char) (sep : Char)
    (hm : ∀ c ∈ mc, isDig c = true) (hd : ∀ c ∈ dc, isDig c = true)
    (hsep : isSep sep = true) (hsd : isDig sep = false)
    (hlm : mc.length = 1 ∨ mc.length = 2) (hld : dc.length = 1 ∨ dc.length = 2) :
    matchPat pat2 (mc ++ sep :: dc) = some (((0 + dc.length) + 1) + mc.length) := by
  have h5 : mt 1 [] ([] : List Char) = some 0 := mt_nil_toks 0 []
  have h4 : mt 2 [.digits 1 2] dc = some (0 + dc.length) := by
    have := mt_d12 1 [] dc [] 0 hd (by intro c cs h; cases h) hld h5
    simpa using this
  have h3 : mt 3 [.sepTok, .digits 1 2] (sep :: dc) = some ((0 + dc.length) + 1) :=
    mt_sep_cons 2 [.digits 1 2] sep dc (0 + dc.length) hsep h4
  exact mt_d12 3 _ mc _ _ hm (by intro c cs h; cases h; exact hsd) hlm h3

theorem matchPat3_whole (mc dc : List Char)
    (hm : ∀ c ∈ mc, isDig c = true) (hd : ∀ c ∈ dc, isDig c = true)
    (hlm : mc.length = 1 ∨ mc.length = 2) (hld : dc.length = 1 ∨ dc.length = 2) :
    matchPat pat3 (mc ++ '月' :: (dc ++ ['日'])) =
      some (((((0 + 1) + dc.length) + 1) + mc.length)) := by
  have h5 : mt 1 [] ([] : List Char) = some 0 := mt_nil_toks 0 []
  have h4 : mt 2 [.lit '日'] ['日'] = some 1 := by
    have := mt_lit_cons 1 [] '日' [] 0 h5
    simpa using this
  have h3 : mt 3 [.digits 1 2, .lit '日'] (dc ++ ['日']) = some ((0 + 1) + dc.length) := by
    have := mt_d12 2 [.lit '日'] dc ['日'] (0 + 1) hd
      (by intro c cs h; cases h; decide) hld (by simpa using h4)
    simpa using this
  have h2 : mt 4 [.lit '月', .digits 1 2, .lit '日'] ('月' :: (dc ++ ['日'])) =
      some (((0 + 1) + dc.length) + 1) :=
    mt_lit_cons 3 _ '月' _ _ h3
  exact mt_d12 4 _ mc _ _ hm (by intro c cs h; cases h; decide) hlm h2

theorem matchPat1_allDig (s : List Char) (hs : ∀ c ∈ s, isDig c = true) :
    matchPat pat1 s = none :=
  mt_digits_allDig 5 3 4 _ s hs (fun s' hs' => mt_sep_allDig 4 _ s' hs')

theorem matchPat2_allDig (s : List Char) (hs : ∀ c ∈ s, isDig c = true) :
    matchPat pat2 s = none :=
  mt_digits_allDig 3 1 2 _ s hs (fun s' hs' => mt_sep_allDig 2 _ s' hs')

theorem matchPat3_allDig (s : List Char) (hs : ∀ c ∈ s, isDig c = true) :
    matchPat pat3 s = none :=
  mt_digits_allDig 4 1 2 _ s hs (fun s' hs' => mt_lit_allDig 3 _ '月' s' hs' (by decide))

theorem matchPat3_run_fail (ds : List Char) (e : Char) (tail : List Char)
    (hd : ∀ c ∈ ds, isDig c = true) (he : isDig e = false) (hne : e ≠ '月') :
    matchPat pat3 (ds ++ e :: tail) = none :=
  mt_digits_litfail 4 1 2 '月' _ ds e tail hd he (by decide) hne

/-! ## `finditer` evaluation lemmas -/

theorem finditerAux_nil (pat : List RTok) (hnil : matchPat pat [] = none) :
    ∀ f, finditerAux pat f [] = [] := by
  intro f
  cases f with
  | zero => rfl
  | succ f' =>
    unfold finditerAux
    rw [hnil]

theorem finditer_whole (pat : List RTok) (s : List Char) (hs : s ≠ [])
    (h : matchPat pat s = some s.length) (hnil : matchPat pat [] = none) :
    finditer pat s = [s] := by
  cases s with
  | nil => exact absurd rfl hs
  | cons c t =>
    unfold finditer
    simp only [List.length_cons] at h ⊢
    unfold finditerAux
    rw [h]
    dsimp only
    rw [List.take_of_length_le (by simp), List.drop_eq_nil_of_le (by simp)]
    rw [finditerAux_nil pat hnil]

theorem finditer_cons_none (pat : List RTok) (c : Char) (t : List Char)
    (h : matchPat pat (c :: t) = none) :
    finditer pat (c :: t) = finditer pat t := by
  unfold finditer
  simp only [List.length_cons]
  conv_lhs => unfold finditerAux
  rw [h]

theorem finditer_pat3_skip (e : Char) (tail : List Char) (he : isDig e = false)
    (hne : e ≠ '月') :
    ∀ ds, (∀ c ∈ ds, isDig c = true) →
      finditer pat3 (ds ++ e :: tail) = finditer pat3 tail := by
  intro ds
  induction ds with
  | nil =>
    intro _
    simp only [List.nil_append]
    rw [finditer_cons_none pat3 e tail]
    have := matchPat3_run_fail [] e tail (by intro c hc; cases hc) he hne
    simpa using this
  | cons d ds' ih =>
    intro hd
    simp only [List.cons_append]
    rw [finditer_cons_none pat3 d (ds' ++ e :: tail)]
    · exact ih (fun c hc => hd c (List.mem_cons_of_mem d hc))
    · have := matchPat3_run_fail (d :: ds') e tail hd he hne
      simpa using this

theorem finditer_allDig (pat : List RTok)
    (hpat : ∀ s, (∀ c ∈ s, isDig c = true) → matchPat pat s = none) :
    ∀ s, (∀ c ∈ s, isDig c = true) → finditer pat s = [] := by
  have haux : ∀ f s, (∀ c ∈ s, isDig c = true) → finditerAux pat f s = [] := by
    intro f
    induction f with
    | zero => intro s _; rfl
    | succ f' ih =>
      intro s hs
      cases s with
      | nil => exact finditerAux_nil pat (hpat [] (by intro c hc; cases hc)) _
      | cons c t =>
        unfold finditerAux
        rw [hpat (c :: t) hs]
        exact ih t (fun x hx => hs x (List.mem_cons_of_mem c hx))
  intro s hs
  exact haux s.length s hs

/-! ## `strptime`-format evaluation lemmas -/

theorem list_len4 {l : List Char} (h : l.length = 4) :
    ∃ a b c d, l = [a, b, c, d] := by
  cases l with
  | nil => simp at h
  | cons a t =>
    simp only [List.length_cons] at h
    have ht3 : t.length = 3 := by omega
    obtain ⟨b, c, d, ht⟩ := List.length_eq_three.mp ht3
    exact ⟨a, b, c, d, by rw [ht]⟩

theorem pad2_ne_nil (n : Nat) : pad2 n ≠ [] := by
  unfold pad2
  by_cases h10 : n < 10
  · rw [if_pos h10]; simp
  · rw [if_neg h10]; exact ntc_ne_nil n

/-- `monthThen` on a clean month run followed by the literal. -/
theorem monthThen_ok (lit : Char) (mc r : List Char)
    (hm : ∀ c ∈ mc, isDig c = true) (hlm : mc.length = 1 ∨ mc.length = 2)
    (hv1 : 1 ≤ digitsToNat mc) (hv2 : digitsToNat mc ≤ 12)
    (hlit : isDig lit = false) :
    monthThen lit (mc ++ lit :: r) = some (digitsToNat mc, r) := by
  have hspan : spanDigits (mc ++ lit :: r) = (mc, lit :: r) := by
    apply spanDigits_append _ _ hm
    intro c cs h
    cases h
    exact hlit
  unfold monthThen
  rw [hspan]
  dsimp only
  rw [if_pos ⟨hlm, hv1, hv2⟩, if_pos rfl]

/-- `dayEnd` on a clean day run consuming the rest. -/
theorem dayEnd_ok (dc : List Char) (hd : ∀ c ∈ dc, isDig c = true)
    (hld : dc.length = 1 ∨ dc.length = 2)
    (hv1 : 1 ≤ digitsToNat dc) (hv2 : digitsToNat dc ≤ 31) :
    dayEnd dc = some (digitsToNat dc) := by
  have hspan : spanDigits dc = (dc, []) := spanDigits_all dc hd
  have hne : dc ≠ [] := by
    intro h
    rw [h] at hld
    simp at hld
  unfold dayEnd
  rw [hspan]
  dsimp only
  rw [if_neg hne, if_pos ⟨hld, hv1, hv2, rfl⟩]

/-- `dayThenEnd` on a clean day run followed by the literal at the end. -/
theorem dayThenEnd_ok (lit : Char) (dc : List Char)
    (hd : ∀ c ∈ dc, isDig c = true) (hld : dc.length = 1 ∨ dc.length = 2)
    (hv1 : 1 ≤ digitsToNat dc) (hv2 : digitsToNat dc ≤ 31)
    (hlit : isDig lit = false) :
    dayThenEnd lit (dc ++ [lit]) = some (digitsToNat dc) := by
  have hspan : spanDigits (dc ++ [lit]) = (dc, [lit]) := by
    apply spanDigits_append _ _ hd
    intro c cs h
    cases h
    exact hlit
  have hne : dc ≠ [] := by
    intro h
    rw [h] at hld
    simp at hld
  unfold dayThenEnd
  rw [hspan]
  dsimp only
  rw [if_neg hne, if_pos ⟨hld, hv1, hv2, rfl⟩]

/-- `fmtYsep` succeeds on the zero-padded rendering with its own
separator. -/
theorem fmtYsep_ok (sep : Char) (y m d : Nat) (hy1 : 1000 ≤ y) (hy2 : y ≤ 9999)
    (hm1 : 1 ≤ m) (hm2 : m ≤ 12) (hd1 : 1 ≤ d) (hd2 : d ≤ daysInMonth y m)
    (hsd : isDig sep = false) :
    fmtYsep sep (numToChars y ++ sep :: (pad2 m ++ sep :: pad2 d)) = some ⟨y, m, d⟩ := by
  have h31 : daysInMonth y m ≤ 31 := daysInMonth_le y m
  obtain ⟨y1, y2, y3, y4, hyc⟩ := list_len4 (ntc_len4 hy1 (by omega))
  have hdigs : ∀ c ∈ [y1, y2, y3, y4], isDig c = true := by
    rw [← hyc]; exact ntc_all_isDig y
  have hval : digitsToNat [y1, y2, y3, y4] = y := by rw [← hyc]; exact ntc_val y
  rw [hyc]
  simp only [List.cons_append, List.nil_append]
  unfold fmtYsep
  dsimp only
  rw [if_pos ⟨hdigs y1 (by simp), hdigs y2 (by simp), hdigs y3 (by simp),
    hdigs y4 (by simp), rfl⟩]
  rw [monthThen_ok sep (pad2 m) (pad2 d) (pad2_all_isDig m)
    (Or.inr (pad2_len (by omega))) (by rw [pad2_val (by omega)]; omega)
    (by rw [pad2_val (by omega)]; omega) hsd]
  dsimp only
  rw [dayEnd_ok (pad2 d) (pad2_all_isDig d) (Or.inr (pad2_len (by omega)))
    (by rw [pad2_val (by omega)]; omega)
    (by rw [pad2_val (by omega)]; have := daysInMonth_le y m; omega)]
  dsimp only
  rw [pad2_val (by omega : m < 100), pad2_val (by omega : d < 100), hval]
  unfold mkDate
  rw [if_pos ⟨by omega, by omega, hm1, hm2, hd1, hd2⟩]

/-- `fmtYsep` with the wrong separator fails on the rendering. -/
theorem fmtYsep_wrong (sep sep' : Char) (y m d : Nat) (hy1 : 1000 ≤ y) (hy2 : y ≤ 9999)
    (hne : sep ≠ sep') :
    fmtYsep sep' (numToChars y ++ sep :: (pad2 m ++ sep :: pad2 d)) = none := by
  obtain ⟨y1, y2, y3, y4, hyc⟩ := list_len4 (ntc_len4 hy1 (by omega))
  rw [hyc]
  simp only [List.cons_append, List.nil_append]
  unfold fmtYsep
  dsimp only
  rw [if_neg]
  rintro ⟨-, -, -, -, h⟩
  exact hne h

/-- `parse_to_western_date` on the zero-padded year-bearing rendering with
separator `'-'` or `'/'`: the ROC regex rejects the 4-digit year and the
matching `%Y` format parses it exactly. -/
theorem parse_ymd_pad (y m d : Nat) (sep : Char) (hsep : sep = '-' ∨ sep = '/')
    (hy1 : 1000 ≤ y) (hy2 : y ≤ 9999) (hm1 : 1 ≤ m) (hm2 : m ≤ 12) (hd1 : 1 ≤ d)
    (hd2 : d ≤ daysInMonth y m) :
    parse_to_western_date (numToChars y ++ sep :: (pad2 m ++ sep :: pad2 d)) =
      some ⟨y, m, d⟩ := by
  have hsd : isDig sep = false := by rcases hsep with rfl | rfl <;> decide
  have hmem : ∀ x ∈ numToChars y ++ sep :: (pad2 m ++ sep :: pad2 d),
      isDig x = true ∨ x = sep := by
    intro x hx
    rcases List.mem_append.mp hx with h | h
    · exact Or.inl (ntc_all_isDig y x h)
    · rcases List.mem_cons.mp h with h | h
      · exact Or.inr h
      · rcases List.mem_append.mp h with h2 | h2
        · exact Or.inl (pad2_all_isDig m x h2)
        · rcases List.mem_cons.mp h2 with h2 | h2
          · exact Or.inr h2
          · exact Or.inl (pad2_all_isDig d x h2)
  have hstrip : pyStrip (numToChars y ++ sep :: (pad2 m ++ sep :: pad2 d)) =
      numToChars y ++ sep :: (pad2 m ++ sep :: pad2 d) := by
    apply pyStrip_id
    intro x hx
    rcases hmem x hx with h | h
    · exact isDig_not_space h
    · rw [h]; rcases hsep with rfl | rfl <;> decide
  have hnorm : normalize3 (numToChars y ++ sep :: (pad2 m ++ sep :: pad2 d)) =
      numToChars y ++ sep :: (pad2 m ++ sep :: pad2 d) := by
    apply norm3_id
    intro x hx
    rcases hmem x hx with h | h
    · exact isDig_norm3 h
    · rw [h]; rcases hsep with rfl | rfl <;> decide
  have hspan1 : spanDigits (numToChars y ++ sep :: (pad2 m ++ sep :: pad2 d)) =
      (numToChars y, sep :: (pad2 m ++ sep :: pad2 d)) := by
    apply spanDigits_append _ _ (ntc_all_isDig y)
    intro x cs h
    cases h
    exact hsd
  have hspan2 : spanDigits (pad2 m ++ sep :: pad2 d) = (pad2 m, sep :: pad2 d) := by
    apply spanDigits_append _ _ (pad2_all_isDig m)
    intro x cs h
    cases h
    exact hsd
  have hspan3 : spanDigits (pad2 d) = (pad2 d, []) := spanDigits_all _ (pad2_all_isDig d)
  have hlen4 : (numToChars y).length = 4 := ntc_len4 hy1 (by omega)
  have hroc : rocTriple (numToChars y ++ sep :: (pad2 m ++ sep :: pad2 d)) = none := by
    unfold rocTriple
    rw [hspan1]
    dsimp only
    rw [hspan2]
    dsimp only
    rw [if_neg]
    rintro ⟨-, h3, -⟩
    omega
  unfold parse_to_western_date
  rw [hstrip, hnorm, hroc]
  dsimp only
  unfold strptimeChain
  rcases hsep with rfl | rfl
  · rw [fmtYsep_ok '-' y m d hy1 hy2 hm1 hm2 hd1 hd2 hsd]
    rfl
  · rw [fmtYsep_wrong '/' '-' y m d hy1 hy2 (by decide)]
    rw [fmtYsep_ok '/' y m d hy1 hy2 hm1 hm2 hd1 hd2 hsd]
    rfl

/-- `parse_to_western_date` on a year-omitted `M/D` string: the ROC regex
(two separators required) and the `%Y` formats fail, `%m/%d` parses it with
the default year 1900. -/
theorem parse_md_slash (mc dc : List Char)
    (hm : ∀ c ∈ mc, isDig c = true) (hd : ∀ c ∈ dc, isDig c = true)
    (hlm : mc.length = 1 ∨ mc.length = 2) (hld : dc.length = 1 ∨ dc.length = 2)
    (hv1 : 1 ≤ digitsToNat mc) (hv2 : digitsToNat mc ≤ 12)
    (hw1 : 1 ≤ digitsToNat dc) (hw2 : digitsToNat dc ≤ 31)
    (hday : digitsToNat dc ≤ daysInMonth 1900 (digitsToNat mc)) :
    parse_to_western_date (mc ++ '/' :: dc) =
      some ⟨1900, digitsToNat mc, digitsToNat dc⟩ := by
  have hmem : ∀ x ∈ mc ++ '/' :: dc, isDig x = true ∨ x = '/' := by
    intro x hx
    rcases List.mem_append.mp hx with h | h
    · exact Or.inl (hm x h)
    · rcases List.mem_cons.mp h with h | h
      · exact Or.inr h
      · exact Or.inl (hd x h)
  have hstrip : pyStrip (mc ++ '/' :: dc) = mc ++ '/' :: dc := by
    apply pyStrip_id
    intro x hx
    rcases hmem x hx with h | h
    · exact isDig_not_space h
    · rw [h]; decide
  have hnorm : normalize3 (mc ++ '/' :: dc) = mc ++ '/' :: dc := by
    apply norm3_id
    intro x hx
    rcases hmem x hx with h | h
    · exact isDig_norm3 h
    · rw [h]; decide
  have hspan1 : spanDigits (mc ++ '/' :: dc) = (mc, '/' :: dc) := by
    apply spanDigits_append _ _ hm
    intro x cs h
    cases h
    decide
  have hspan2 : spanDigits dc = (dc, []) := spanDigits_all _ hd
  have hroc : rocTriple (mc ++ '/' :: dc) = none := by
    unfold rocTriple
    rw [hspan1]
    dsimp only
    rw [hspan2]
  have hmd : fmtMDsep '/' (mc ++ '/' :: dc) =
      some ⟨1900, digitsToNat mc, digitsToNat dc⟩ := by
    unfold fmtMDsep
    rw [monthThen_ok '/' mc dc hm hlm hv1 hv2 (by decide)]
    dsimp only
    rw [dayEnd_ok dc hd hld hw1 hw2]
    dsimp only
    unfold mkDate
    rw [if_pos ⟨by omega, by omega, hv1, hv2, hw1, hday⟩]
  have hfy : ∀ sep', fmtYsep sep' (mc ++ '/' :: dc) = none := by
    intro sep'
    rcases hlm with h1 | h1
    · obtain ⟨m1, hmc⟩ := List.length_eq_one.mp h1
      rcases hld with h2 | h2
      · obtain ⟨d1, hdc⟩ := List.length_eq_one.mp h2
        rw [hmc, hdc]
        rfl
      · obtain ⟨d1, d2, hdc⟩ := List.length_eq_two.mp h2
        rw [hmc, hdc]
        rfl
    · obtain ⟨m1, m2, hmc⟩ := List.length_eq_two.mp h1
      rcases hld with h2 | h2
      · obtain ⟨d1, hdc⟩ := List.length_eq_one.mp h2
        rw [hmc, hdc]
        rfl
      · obtain ⟨d1, d2, hdc⟩ := List.length_eq_two.mp h2
        rw [hmc, hdc]
        simp only [List.cons_append, List.nil_append]
        unfold fmtYsep
        dsimp only
        rw [if_neg]
        rintro ⟨-, -, h3, -⟩
        exact absurd h3 (by decide)
  have hfc : fmtYmdCompact (mc ++ '/' :: dc) = none := by
    rcases hlm with h1 | h1
    · obtain ⟨m1, hmc⟩ := List.length_eq_one.mp h1
      rcases hld with h2 | h2
      · obtain ⟨d1, hdc⟩ := List.length_eq_one.mp h2
        rw [hmc, hdc]
        rfl
      · obtain ⟨d1, d2, hdc⟩ := List.length_eq_two.mp h2
        rw [hmc, hdc]
        simp only [List.cons_append, List.nil_append]
        unfold fmtYmdCompact
        dsimp only
        rw [if_neg]
        rintro ⟨-, h2', -⟩
        exact absurd h2' (by decide)
    · obtain ⟨m1, m2, hmc⟩ := List.length_eq_two.mp h1
      rcases hld with h2 | h2
      · obtain ⟨d1, hdc⟩ := List.length_eq_one.mp h2
        rw [hmc, hdc]
        simp only [List.cons_append, List.nil_append]
        unfold fmtYmdCompact
        dsimp only
        rw [if_neg]
        rintro ⟨-, -, h3, -⟩
        exact absurd h3 (by decide)
      · obtain ⟨d1, d2, hdc⟩ := List.length_eq_two.mp h2
        rw [hmc, hdc]
        simp only [List.cons_append, List.nil_append]
        unfold fmtYmdCompact
        dsimp only
        rw [if_neg]
        rintro ⟨-, -, h3, -⟩
        exact absurd h3 (by decide)
  unfold parse_to_western_date
  rw [hstrip, hnorm, hroc]
  dsimp only
  unfold strptimeChain
  rw [hfy '-', hfy '/', hfc, hmd]
  rfl

/-- `parse_to_western_date` on a year-omitted Chinese `M月D日` string: only
`%m月%d日` matches, with the default year 1900. -/
theorem parse_md_chinese (mc dc : List Char)
    (hm : ∀ c ∈ mc, isDig c = true) (hd : ∀ c ∈ dc, isDig c = true)
    (hlm : mc.length = 1 ∨ mc.length = 2) (hld : dc.length = 1 ∨ dc.length = 2)
    (hv1 : 1 ≤ digitsToNat mc) (hv2 : digitsToNat mc ≤ 12)
    (hw1 : 1 ≤ digitsToNat dc) (hw2 : digitsToNat dc ≤ 31)
    (hday : digitsToNat dc ≤ daysInMonth 1900 (digitsToNat mc)) :
    parse_to_western_date (mc ++ '月' :: (dc ++ ['日'])) =
      some ⟨1900, digitsToNat mc, digitsToNat dc⟩ := by
  have hmem : ∀ x ∈ mc ++ '月' :: (dc ++ ['日']),
      isDig x = true ∨ x = '月' ∨ x = '日' := by
    intro x hx
    rcases List.mem_append.mp hx with h | h
    · exact Or.inl (hm x h)
    · rcases List.mem_cons.mp h with h | h
      · exact Or.inr (Or.inl h)
      · rcases List.mem_append.mp h with h2 | h2
        · exact Or.inl (hd x h2)
        · rcases List.mem_cons.mp h2 with h2 | h2
          · exact Or.inr (Or.inr h2)
          · cases h2
  have hstrip : pyStrip (mc ++ '月' :: (dc ++ ['日'])) = mc ++ '月' :: (dc ++ ['日']) := by
    apply pyStrip_id
    intro x hx
    rcases hmem x hx with h | h | h
    · exact isDig_not_space h
    · rw [h]; decide
    · rw [h]; decide
  have hnorm : normalize3 (mc ++ '月' :: (dc ++ ['日'])) = mc ++ '月' :: (dc ++ ['日']) := by
    apply norm3_id
    intro x hx
    rcases hmem x hx with h | h | h
    · exact isDig_norm3 h
    · rw [h]; decide
    · rw [h]; decide
  have hspan1 : spanDigits (mc ++ '月' :: (dc ++ ['日'])) = (mc, '月' :: (dc ++ ['日'])) := by
    apply spanDigits_append _ _ hm
    intro x cs h
    cases h
    decide
  have hspan2 : spanDigits (dc ++ ['日']) = (dc, ['日']) := by
    apply spanDigits_append _ _ hd
    intro x cs h
    cases h
    decide
  have hroc : rocTriple (mc ++ '月' :: (dc ++ ['日'])) = none := by
    unfold rocTriple
    rw [hspan1]
    dsimp only
    rw [hspan2]
    dsimp only
    rw [if_neg]
    rintro ⟨-, -, h3, -⟩
    exact absurd h3 (by decide)
  have hmdc : fmtMDchinese (mc ++ '月' :: (dc ++ ['日'])) =
      some ⟨1900, digitsToNat mc, digitsToNat dc⟩ := by
    unfold fmtMDchinese
    rw [monthThen_ok '月' mc (dc ++ ['日']) hm hlm hv1 hv2 (by decide)]
    dsimp only
    rw [dayThenEnd_ok '日' dc hd hld hw1 hw2 (by decide)]
    dsimp only
    unfold mkDate
    rw [if_pos ⟨by omega, by omega, hv1, hv2, hw1, hday⟩]
  have hfmd : ∀ sep', isDig sep' = false → sep' ≠ '月' →
      fmtMDsep sep' (mc ++ '月' :: (dc ++ ['日'])) = none := by
    intro sep' hsd hne
    have hmon : monthThen sep' (mc ++ '月' :: (dc ++ ['日'])) = none := by
      unfold monthThen
      rw [hspan1]
      dsimp only
      by_cases hcnd : (mc.length = 1 ∨ mc.length = 2) ∧
          1 ≤ digitsToNat mc ∧ digitsToNat mc ≤ 12
      · rw [if_pos hcnd, if_neg (fun h => hne h.symm)]
      · rw [if_neg hcnd]
    unfold fmtMDsep
    rw [hmon]
  have hfy : ∀ sep', fmtYsep sep' (mc ++ '月' :: (dc ++ ['日'])) = none := by
    intro sep'
    rcases hlm with h1 | h1
    · obtain ⟨m1, hmc⟩ := List.length_eq_one.mp h1
      rcases hld with h2 | h2
      · obtain ⟨d1, hdc⟩ := List.length_eq_one.mp h2
        rw [hmc, hdc]
        rfl
      · obtain ⟨d1, d2, hdc⟩ := List.length_eq_two.mp h2
        rw [hmc, hdc]
        simp only [List.cons_append, List.nil_append]
        unfold fmtYsep
        dsimp only
        rw [if_neg]
        rintro ⟨-, h2', -⟩
        exact absurd h2' (by decide)
    · obtain ⟨m1, m2, hmc⟩ := List.length_eq_two.mp h1
      rcases hld with h2 | h2
      · obtain ⟨d1, hdc⟩ := List.length_eq_one.mp h2
        rw [hmc, hdc]
        simp only [List.cons_append, List.nil_append]
        unfold fmtYsep
        dsimp only
        rw [if_neg]
        rintro ⟨-, -, h3, -⟩
        exact absurd h3 (by decide)
      · obtain ⟨d1, d2, hdc⟩ := List.length_eq_two.mp h2
        rw [hmc, hdc]
        simp only [List.cons_append, List.nil_append]
        unfold fmtYsep
        dsimp only
        rw [if_neg]
        rintro ⟨-, -, h3, -⟩
        exact absurd h3 (by decide)
  have hfc : fmtYmdCompact (mc ++ '月' :: (dc ++ ['日'])) = none := by
    rcases hlm with h1 | h1
    · obtain ⟨m1, hmc⟩ := List.length_eq_one.mp h1
      rcases hld with h2 | h2
      · obtain ⟨d1, hdc⟩ := List.length_eq_one.mp h2
        rw [hmc, hdc]
        simp only [List.cons_append, List.nil_append]
        unfold fmtYmdCompact
        dsimp only
        rw [if_neg]
        rintro ⟨-, h2', -⟩
        exact absurd h2' (by decide)
      · obtain ⟨d1, d2, hdc⟩ := List.length_eq_two.mp h2
        rw [hmc, hdc]
        simp only [List.cons_append, List.nil_append]
        unfold fmtYmdCompact
        dsimp only
        rw [if_neg]
        rintro ⟨-, h2', -⟩
        exact absurd h2' (by decide)
    · obtain ⟨m1, m2, hmc⟩ := List.length_eq_two.mp h1
      rcases hld with h2 | h2
      · obtain ⟨d1, hdc⟩ := List.length_eq_one.mp h2
        rw [hmc, hdc]
        simp only [List.cons_append, List.nil_append]
        unfold fmtYmdCompact
        dsimp only
        rw [if_neg]
        rintro ⟨-, -, h3, -⟩
        exact absurd h3 (by decide)
      · obtain ⟨d1, d2, hdc⟩ := List.length_eq_two.mp h2
        rw [hmc, hdc]
        simp only [List.cons_append, List.nil_append]
        unfold fmtYmdCompact
        dsimp only
        rw [if_neg]
        rintro ⟨-, -, h3, -⟩
        exact absurd h3 (by decide)
  unfold parse_to_western_date
  rw [hstrip, hnorm, hroc]
  dsimp only
  unfold strptimeChain
  rw [hfy '-', hfy '/', hfc, hfmd '/' (by decide) (by decide),
    hfmd '-' (by decide) (by decide), hmdc]
  rfl

/-! ## Per-candidate-form recognizer lemmas (C1) -/

theorem intToChars_nonneg (y : Nat) (h : 1911 ≤ y) :
    intToChars ((y : Int) - 1911) = numToChars (y - 1911) := by
  unfold intToChars
  rw [if_neg (by omega)]
  have habs : ((y : Int) - 1911).natAbs = y - 1911 := by omega
  rw [habs]

theorem day_le_1900 (y m d : Nat) (hne : ¬(m = 2 ∧ d = 29))
    (h : d ≤ daysInMonth y m) : d ≤ daysInMonth 1900 m := by
  unfold daysInMonth at h ⊢
  by_cases hm2 : m = 2
  · subst hm2
    rw [if_pos rfl] at h ⊢
    rw [show isLeap 1900 = false from by decide]
    have hd29 : d ≠ 29 := fun h' => hne ⟨rfl, h'⟩
    by_cases hl : isLeap y = true
    · rw [if_pos hl] at h
      simp only [Bool.false_eq_true, if_false]
      omega
    · rw [if_neg hl] at h
      simp only [Bool.false_eq_true, if_false]
      omega
  · rw [if_neg hm2] at h ⊢
    exact h

theorem norm3_of_kinds {l : List Char}
    (h : ∀ c ∈ l, isDig c = true ∨ c = '/' ∨ c = '-' ∨ c = '年' ∨ c = '月' ∨ c = '日') :
    normalize3 l = l := by
  apply norm3_id
  intro c hc
  rcases h c hc with h' | h' | h' | h' | h' | h'
  · exact isDig_norm3 h'
  all_goals (rw [h']; decide)

theorem norm4_of_kinds {l : List Char}
    (h : ∀ c ∈ l, isDig c = true ∨ c = '/' ∨ c = '-' ∨ c = '年' ∨ c = '月' ∨ c = '日') :
    normalize4 l = l := by
  apply norm4_id
  intro c hc
  rcases h c hc with h' | h' | h' | h' | h' | h'
  · exact isDig_norm4 h'
  all_goals (rw [h']; decide)

/-- The ISO (dash or slash) rendering is recognized as exactly the target. -/
theorem find_iso (y m d : Nat) (sep : Char) (hsep : sep = '-' ∨ sep = '/')
    (hy1 : 1000 ≤ y) (hy2 : y ≤ 9999) (hm1 : 1 ≤ m) (hm2 : m ≤ 12)
    (hd1 : 1 ≤ d) (hd2 : d ≤ daysInMonth y m) :
    (⟨y, m, d⟩ : PyDate) ∈
      find_date_like_in_text (numToChars y ++ sep :: (pad2 m ++ sep :: pad2 d)) := by
  have h31 : daysInMonth y m ≤ 31 := daysInMonth_le y m
  have hsd : isDig sep = false := by rcases hsep with rfl | rfl <;> decide
  have hss : isSep sep = true := by rcases hsep with rfl | rfl <;> decide
  have hmem : ∀ x ∈ numToChars y ++ sep :: (pad2 m ++ sep :: pad2 d),
      isDig x = true ∨ x = '/' ∨ x = '-' ∨ x = '年' ∨ x = '月' ∨ x = '日' := by
    intro x hx
    rcases List.mem_append.mp hx with h | h
    · exact Or.inl (ntc_all_isDig y x h)
    · rcases List.mem_cons.mp h with h | h
      · subst h; rcases hsep with rfl | rfl
        · exact Or.inr (Or.inr (Or.inl rfl))
        · exact Or.inr (Or.inl rfl)
      · rcases List.mem_append.mp h with h2 | h2
        · exact Or.inl (pad2_all_isDig m x h2)
        · rcases List.mem_cons.mp h2 with h2 | h2
          · subst h2; rcases hsep with rfl | rfl
            · exact Or.inr (Or.inr (Or.inl rfl))
            · exact Or.inr (Or.inl rfl)
          · exact Or.inl (pad2_all_isDig d x h2)
  have hnorm := norm3_of_kinds hmem
  have hlen4 : (numToChars y).length = 4 := ntc_len4 hy1 (by omega)
  have hlm : (pad2 m).length = 2 := pad2_len (by omega)
  have hld : (pad2 d).length = 2 := pad2_len (by omega)
  have hmp : matchPat pat1 (numToChars y ++ sep :: (pad2 m ++ sep :: pad2 d)) =
      some ((numToChars y ++ sep :: (pad2 m ++ sep :: pad2 d)).length) := by
    rw [matchPat1_whole (numToChars y) (pad2 m) (pad2 d) sep (ntc_all_isDig y)
      (pad2_all_isDig m) (pad2_all_isDig d) hss hsd (Or.inr hlen4) (Or.inr hlm)
      (Or.inr hld)]
    refine congrArg some ?_
    simp only [List.length_append, List.length_cons, hlen4, hlm, hld]
    try omega
  have hne : numToChars y ++ sep :: (pad2 m ++ sep :: pad2 d) ≠ [] := by
    intro hEq
    exact ntc_ne_nil y (List.append_eq_nil.mp hEq).1
  have hfind1 : finditer pat1 (numToChars y ++ sep :: (pad2 m ++ sep :: pad2 d)) =
      [numToChars y ++ sep :: (pad2 m ++ sep :: pad2 d)] :=
    finditer_whole pat1 _ hne hmp (by decide)
  have hparse := parse_ymd_pad y m d sep hsep hy1 hy2 hm1 hm2 hd1 hd2
  unfold find_date_like_in_text
  rw [hnorm, hfind1]
  simp [hparse]

/-- The ROC rendering with a three-digit ROC year is recognized as exactly
the target. -/
theorem find_roc (y m d : Nat) (hy1 : 2011 ≤ y) (hy2 : y ≤ 2110)
    (hm1 : 1 ≤ m) (hm2 : m ≤ 12) (hd1 : 1 ≤ d) (hd2 : d ≤ daysInMonth y m) :
    (⟨y, m, d⟩ : PyDate) ∈
      find_date_like_in_text
        (numToChars (y - 1911) ++ '/' :: (numToChars m ++ '/' :: numToChars d)) := by
  have h31 : daysInMonth y m ≤ 31 := daysInMonth_le y m
  have hroc1 : 100 ≤ y - 1911 := by omega
  have hroc2 : y - 1911 ≤ 199 := by omega
  have hmem : ∀ x ∈ numToChars (y - 1911) ++ '/' :: (numToChars m ++ '/' :: numToChars d),
      isDig x = true ∨ x = '/' ∨ x = '-' ∨ x = '年' ∨ x = '月' ∨ x = '日' := by
    intro x hx
    rcases List.mem_append.mp hx with h | h
    · exact Or.inl (ntc_all_isDig _ x h)
    · rcases List.mem_cons.mp h with h | h
      · exact Or.inr (Or.inl h)
      · rcases List.mem_append.mp h with h2 | h2
        · exact Or.inl (ntc_all_isDig m x h2)
        · rcases List.mem_cons.mp h2 with h2 | h2
          · exact Or.inr (Or.inl h2)
          · exact Or.inl (ntc_all_isDig d x h2)
  have hnorm := norm3_of_kinds hmem
  have hlen3 : (numToChars (y - 1911)).length = 3 := ntc_len3 hroc1 (by omega)
  have hlm : (numToChars m).length = 1 ∨ (numToChars m).length = 2 := by
    by_cases h10 : m < 10
    · exact Or.inl (ntc_len1 h10)
    · exact Or.inr (ntc_len2 (by omega) (by omega))
  have hld : (numToChars d).length = 1 ∨ (numToChars d).length = 2 := by
    by_cases h10 : d < 10
    · exact Or.inl (ntc_len1 h10)
    · exact Or.inr (ntc_len2 (by omega) (by omega))
  have hmp : matchPat pat1
        (numToChars (y - 1911) ++ '/' :: (numToChars m ++ '/' :: numToChars d)) =
      some ((numToChars (y - 1911) ++ '/' :: (numToChars m ++ '/' :: numToChars d)).length) := by
    rw [matchPat1_whole (numToChars (y - 1911)) (numToChars m) (numToChars d) '/'
      (ntc_all_isDig _) (ntc_all_isDig m) (ntc_all_isDig d) (by decide) (by decide)
      (Or.inl hlen3) hlm hld]
    refine congrArg some ?_
    simp only [List.length_append, List.length_cons, hlen3]
    try omega
  have hne : numToChars (y - 1911) ++ '/' :: (numToChars m ++ '/' :: numToChars d) ≠ [] := by
    intro hEq
    exact ntc_ne_nil _ (List.append_eq_nil.mp hEq).1
  have hfind1 : finditer pat1
        (numToChars (y - 1911) ++ '/' :: (numToChars m ++ '/' :: numToChars d)) =
      [numToChars (y - 1911) ++ '/' :: (numToChars m ++ '/' :: numToChars d)] :=
    finditer_whole pat1 _ hne hmp (by decide)
  have hparse := parse_roc_shape (y - 1911) m d '/' (Or.inl rfl) (by omega) (by omega)
    hm1 hm2 hd1 (by rw [if_pos (by omega : y - 1911 < 200),
      show y - 1911 + 1911 = y by omega]; exact hd2)
  rw [if_pos (by omega : y - 1911 < 200), show y - 1911 + 1911 = y by omega] at hparse
  unfold find_date_like_in_text
  rw [hnorm, hfind1]
  simp [hparse]

/-- A year-omitted `M/D` rendering (padded or not) is recognized as the
month/day with `strptime`'s default year 1900. -/
theorem find_md_slash (mc dc : List Char) (m d : Nat)
    (hm : ∀ c ∈ mc, isDig c = true) (hd : ∀ c ∈ dc, isDig c = true)
    (hlm : mc.length = 1 ∨ mc.length = 2) (hld : dc.length = 1 ∨ dc.length = 2)
    (hvm : digitsToNat mc = m) (hvd : digitsToNat dc = d)
    (hm1 : 1 ≤ m) (hm2 : m ≤ 12) (hd1 : 1 ≤ d) (hd2 : d ≤ daysInMonth 1900 m) :
    (⟨1900, m, d⟩ : PyDate) ∈ find_date_like_in_text (mc ++ '/' :: dc) := by
  have h31 : daysInMonth 1900 m ≤ 31 := daysInMonth_le 1900 m
  have hmem : ∀ x ∈ mc ++ '/' :: dc,
      isDig x = true ∨ x = '/' ∨ x = '-' ∨ x = '年' ∨ x = '月' ∨ x = '日' := by
    intro x hx
    rcases List.mem_append.mp hx with h | h
    · exact Or.inl (hm x h)
    · rcases List.mem_cons.mp h with h | h
      · exact Or.inr (Or.inl h)
      · exact Or.inl (hd x h)
  have hnorm := norm3_of_kinds hmem
  have hmp : matchPat pat2 (mc ++ '/' :: dc) = some ((mc ++ '/' :: dc).length) := by
    rw [matchPat2_whole mc dc '/' hm hd (by decide) (by decide) hlm hld]
    refine congrArg some ?_
    simp only [List.length_append, List.length_cons]
    omega
  have hne : mc ++ '/' :: dc ≠ [] := by
    intro hEq
    have := (List.append_eq_nil.mp hEq).2
    cases this
  have hfind2 : finditer pat2 (mc ++ '/' :: dc) = [mc ++ '/' :: dc] :=
    finditer_whole pat2 _ hne hmp (by decide)
  have hparse := parse_md_slash mc dc hm hd hlm hld (by omega) (by omega) (by omega)
    (by omega) (by rw [hvm, hvd]; exact hd2)
  rw [hvm, hvd] at hparse
  unfold find_date_like_in_text
  rw [hnorm, hfind2]
  simp [hparse]

/-- The Chinese short form `M月D日` is recognized as the month/day with
default year 1900. -/
theorem find_chinese_short (m d : Nat)
    (hm1 : 1 ≤ m) (hm2 : m ≤ 12) (hd1 : 1 ≤ d) (hd2 : d ≤ daysInMonth 1900 m) :
    (⟨1900, m, d⟩ : PyDate) ∈
      find_date_like_in_text (numToChars m ++ '月' :: (numToChars d ++ ['日'])) := by
  have h31 : daysInMonth 1900 m ≤ 31 := daysInMonth_le 1900 m
  have hlm : (numToChars m).length = 1 ∨ (numToChars m).length = 2 := by
    by_cases h10 : m < 10
    · exact Or.inl (ntc_len1 h10)
    · exact Or.inr (ntc_len2 (by omega) (by omega))
  have hld : (numToChars d).length = 1 ∨ (numToChars d).length = 2 := by
    by_cases h10 : d < 10
    · exact Or.inl (ntc_len1 h10)
    · exact Or.inr (ntc_len2 (by omega) (by omega))
  have hmem : ∀ x ∈ numToChars m ++ '月' :: (numToChars d ++ ['日']),
      isDig x = true ∨ x = '/' ∨ x = '-' ∨ x = '年' ∨ x = '月' ∨ x = '日' := by
    intro x hx
    rcases List.mem_append.mp hx with h | h
    · exact Or.inl (ntc_all_isDig m x h)
    · rcases List.mem_cons.mp h with h | h
      · exact Or.inr (Or.inr (Or.inr (Or.inr (Or.inl h))))
      · rcases List.mem_append.mp h with h2 | h2
        · exact Or.inl (ntc_all_isDig d x h2)
        · rcases List.mem_cons.mp h2 with h2 | h2
          · exact Or.inr (Or.inr (Or.inr (Or.inr (Or.inr h2))))
          · cases h2
  have hnorm := norm3_of_kinds hmem
  have hmp : matchPat pat3 (numToChars m ++ '月' :: (numToChars d ++ ['日'])) =
      some ((numToChars m ++ '月' :: (numToChars d ++ ['日'])).length) := by
    rw [matchPat3_whole (numToChars m) (numToChars d) (ntc_all_isDig m)
      (ntc_all_isDig d) hlm hld]
    refine congrArg some ?_
    simp only [List.length_append, List.length_cons, List.length_nil]
    omega
  have hne : numToChars m ++ '月' :: (numToChars d ++ ['日']) ≠ [] := by
    intro hEq
    exact ntc_ne_nil m (List.append_eq_nil.mp hEq).1
  have hfind3 : finditer pat3 (numToChars m ++ '月' :: (numToChars d ++ ['日'])) =
      [numToChars m ++ '月' :: (numToChars d ++ ['日'])] :=
    finditer_whole pat3 _ hne hmp (by decide)
  have hparse := parse_md_chinese (numToChars m) (numToChars d) (ntc_all_isDig m)
    (ntc_all_isDig d) hlm hld (by rw [ntc_val]; omega) (by rw [ntc_val]; omega)
    (by rw [ntc_val]; omega) (by rw [ntc_val]; omega)
    (by rw [ntc_val, ntc_val]; exact hd2)
  rw [ntc_val, ntc_val] at hparse
  unfold find_date_like_in_text
  rw [hnorm, hfind3]
  simp [hparse]

/-- The Chinese long form `YYYY年M月D日` is recognized as the month/day
with default year 1900 (the year glyph segment never matches a pattern, so
the year is dropped). -/
theorem find_chinese_long (y m d : Nat) (hy1 : 1000 ≤ y) (hy2 : y ≤ 9999)
    (hm1 : 1 ≤ m) (hm2 : m ≤ 12) (hd1 : 1 ≤ d) (hd2 : d ≤ daysInMonth 1900 m) :
    (⟨1900, m, d⟩ : PyDate) ∈
      find_date_like_in_text
        (numToChars y ++ '年' :: (numToChars m ++ '月' :: (numToChars d ++ ['日']))) := by
  have h31 : daysInMonth 1900 m ≤ 31 := daysInMonth_le 1900 m
  have hlm : (numToChars m).length = 1 ∨ (numToChars m).length = 2 := by
    by_cases h10 : m < 10
    · exact Or.inl (ntc_len1 h10)
    · exact Or.inr (ntc_len2 (by omega) (by omega))
  have hld : (numToChars d).length = 1 ∨ (numToChars d).length = 2 := by
    by_cases h10 : d < 10
    · exact Or.inl (ntc_len1 h10)
    · exact Or.inr (ntc_len2 (by omega) (by omega))
  have hmem : ∀ x ∈ numToChars y ++ '年' :: (numToChars m ++ '月' :: (numToChars d ++ ['日'])),
      isDig x = true ∨ x = '/' ∨ x = '-' ∨ x = '年' ∨ x = '月' ∨ x = '日' := by
    intro x hx
    rcases List.mem_append.mp hx with h | h
    · exact Or.inl (ntc_all_isDig y x h)
    · rcases List.mem_cons.mp h with h | h
      · exact Or.inr (Or.inr (Or.inr (Or.inl h)))
      · rcases List.mem_append.mp h with h2 | h2
        · exact Or.inl (ntc_all_isDig m x h2)
        · rcases List.mem_cons.mp h2 with h2 | h2
          · exact Or.inr (Or.inr (Or.inr (Or.inr (Or.inl h2))))
          · rcases List.mem_append.mp h2 with h3 | h3
            · exact Or.inl (ntc_all_isDig d x h3)
            · rcases List.mem_cons.mp h3 with h3 | h3
              · exact Or.inr (Or.inr (Or.inr (Or.inr (Or.inr h3))))
              · cases h3
  have hnorm := norm3_of_kinds hmem
  have hskip : finditer pat3
        (numToChars y ++ '年' :: (numToChars m ++ '月' :: (numToChars d ++ ['日']))) =
      finditer pat3 (numToChars m ++ '月' :: (numToChars d ++ ['日'])) :=
    finditer_pat3_skip '年' _ (by decide) (by decide) (numToChars y) (ntc_all_isDig y)
  have hmp : matchPat pat3 (numToChars m ++ '月' :: (numToChars d ++ ['日'])) =
      some ((numToChars m ++ '月' :: (numToChars d ++ ['日'])).length) := by
    rw [matchPat3_whole (numToChars m) (numToChars d) (ntc_all_isDig m)
      (ntc_all_isDig d) hlm hld]
    refine congrArg some ?_
    simp only [List.length_append, List.length_cons, List.length_nil]
    omega
  have hne : numToChars m ++ '月' :: (numToChars d ++ ['日']) ≠ [] := by
    intro hEq
    exact ntc_ne_nil m (List.append_eq_nil.mp hEq).1
  have hfind3 : finditer pat3 (numToChars m ++ '月' :: (numToChars d ++ ['日'])) =
      [numToChars m ++ '月' :: (numToChars d ++ ['日'])] :=
    finditer_whole pat3 _ hne hmp (by decide)
  have hparse := parse_md_chinese (numToChars m) (numToChars d) (ntc_all_isDig m)
    (ntc_all_isDig d) hlm hld (by rw [ntc_val]; omega) (by rw [ntc_val]; omega)
    (by rw [ntc_val]; omega) (by rw [ntc_val]; omega)
    (by rw [ntc_val, ntc_val]; exact hd2)
  rw [ntc_val, ntc_val] at hparse
  unfold find_date_like_in_text
  rw [hnorm, hskip, hfind3]
  simp [hparse]

/-- The `YYYYMMDD` rendering is never recognized: every pattern needs a
separator or a CJK glyph, and the string is all digits. -/
theorem find_nosep (y m d : Nat) :
    find_date_like_in_text (numToChars y ++ pad2 m ++ pad2 d) = [] := by
  have hall : ∀ c ∈ numToChars y ++ pad2 m ++ pad2 d, isDig c = true := by
    intro c hc
    rcases List.mem_append.mp hc with h | h
    · rcases List.mem_append.mp h with h2 | h2
      · exact ntc_all_isDig y c h2
      · exact pad2_all_isDig m c h2
    · exact pad2_all_isDig d c h
  have hnorm : normalize3 (numToChars y ++ pad2 m ++ pad2 d) =
      numToChars y ++ pad2 m ++ pad2 d :=
    norm3_id (fun c hc => isDig_norm3 (hall c hc))
  unfold find_date_like_in_text
  rw [hnorm]
  rw [finditer_allDig pat1 matchPat1_allDig _ hall,
    finditer_allDig pat2 matchPat2_allDig _ hall,
    finditer_allDig pat3 matchPat3_allDig _ hall]
  rfl

theorem allApp {P : Char → Prop} {a b : List Char} (ha : ∀ c ∈ a, P c)
    (hb : ∀ c ∈ b, P c) : ∀ c ∈ a ++ b, P c :=
  fun c hc => (List.mem_append.mp hc).elim (ha c) (hb c)

theorem allCons {P : Char → Prop} {x : Char} {b : List Char} (hx : P x)
    (hb : ∀ c ∈ b, P c) : ∀ c ∈ x :: b, P c :=
  fun c hc => (List.mem_cons.mp hc).elim (fun h => h ▸ hx) (hb c)

theorem kindsD (n : Nat) : ∀ c ∈ numToChars n,
    isDig c = true ∨ c = '/' ∨ c = '-' ∨ c = '年' ∨ c = '月' ∨ c = '日' :=
  fun c hc => Or.inl (ntc_all_isDig n c hc)

theorem kindsP (n : Nat) : ∀ c ∈ pad2 n,
    isDig c = true ∨ c = '/' ∨ c = '-' ∨ c = '年' ∨ c = '月' ∨ c = '日' :=
  fun c hc => Or.inl (pad2_all_isDig n c hc)

theorem kindsNil : ∀ c ∈ ([] : List Char),
    isDig c = true ∨ c = '/' ∨ c = '-' ∨ c = '年' ∨ c = '月' ∨ c = '日' :=
  fun c hc => absurd hc (List.not_mem_nil c)

/-- **C1, counterexample.**  Three candidate forms of the eight are not
recognized as the claim states, at concrete targets: `"20251023"`
(`YYYYMMDD` of 2025-10-23) is recognized as nothing at all; the Chinese
short form `"10月23日"` is recognized only as 1900-10-23, so the sequence
does not contain the target 2025-10-23; and the ROC form of 1914-10-23 is
`"3/10/23"`, recognized only as 1900-03-10 (wrong month and day). -/
theorem claim_C1_counterexample :
    fmtYmdNoSep ⟨2025, 10, 23⟩ = "20251023".toList ∧
    find_date_like_in_text (normalize4 ("20251023".toList)) = [] ∧
    fmtChineseShort ⟨2025, 10, 23⟩ = "10月23日".toList ∧
    find_date_like_in_text (normalize4 ("10月23日".toList)) = [⟨1900, 10, 23⟩] ∧
    ((⟨2025, 10, 23⟩ : PyDate) ∉ find_date_like_in_text (normalize4 ("10月23日".toList))) ∧
    fmtRoc ⟨1914, 10, 23⟩ = "3/10/23".toList ∧
    find_date_like_in_text (normalize4 ("3/10/23".toList)) = [⟨1900, 3, 10⟩] := by
  decide

/-- **C1, amended.**  For targets with years 2011–2110 (ROC years 100–199):
the ISO dash, ISO slash and ROC renderings are recognized as exactly the
target; the `YYYYMMDD` rendering is recognized as nothing; and — except on
February 29, which `strptime`'s default year 1900 rejects — the padded and
unpadded month/day renderings and both Chinese renderings are recognized as
a date carrying the target's month and day (with year 1900 instead of the
target's year for the year-omitted and Chinese long forms). -/
theorem claim_C1 (y m d : Nat) (hy1 : 2011 ≤ y) (hy2 : y ≤ 2110)
    (hm1 : 1 ≤ m) (hm2 : m ≤ 12) (hd1 : 1 ≤ d) (hd2 : d ≤ daysInMonth y m) :
    ((⟨y, m, d⟩ : PyDate) ∈
      find_date_like_in_text (normalize4 (fmtIsoDash ⟨y, m, d⟩))) ∧
    ((⟨y, m, d⟩ : PyDate) ∈
      find_date_like_in_text (normalize4 (fmtIsoSlash ⟨y, m, d⟩))) ∧
    ((⟨y, m, d⟩ : PyDate) ∈
      find_date_like_in_text (normalize4 (fmtRoc ⟨y, m, d⟩))) ∧
    find_date_like_in_text (normalize4 (fmtYmdNoSep ⟨y, m, d⟩)) = [] ∧
    (¬(m = 2 ∧ d = 29) →
      (∃ e ∈ find_date_like_in_text (normalize4 (fmtMDpad ⟨y, m, d⟩)),
        e.month = m ∧ e.day = d) ∧
      (∃ e ∈ find_date_like_in_text (normalize4 (fmtMD ⟨y, m, d⟩)),
        e.month = m ∧ e.day = d) ∧
      (∃ e ∈ find_date_like_in_text (normalize4 (fmtChinese ⟨y, m, d⟩)),
        e.month = m ∧ e.day = d) ∧
      (∃ e ∈ find_date_like_in_text (normalize4 (fmtChineseShort ⟨y, m, d⟩)),
        e.month = m ∧ e.day = d)) := by
  have hy1' : 1000 ≤ y := by omega
  have hy2' : y ≤ 9999 := by omega
  have hn1 : normalize4 (fmtIsoDash ⟨y, m, d⟩) = fmtIsoDash ⟨y, m, d⟩ :=
    norm4_of_kinds (allApp (kindsD y)
      (allCons (by decide) (allApp (kindsP m) (allCons (by decide) (kindsP d)))))
  have hn2 : normalize4 (fmtIsoSlash ⟨y, m, d⟩) = fmtIsoSlash ⟨y, m, d⟩ :=
    norm4_of_kinds (allApp (kindsD y)
      (allCons (by decide) (allApp (kindsP m) (allCons (by decide) (kindsP d)))))
  have hroc : fmtRoc ⟨y, m, d⟩ =
      numToChars (y - 1911) ++ '/' :: (numToChars m ++ '/' :: numToChars d) := by
    unfold fmtRoc
    rw [intToChars_nonneg y (by omega)]
  have hn3 : normalize4 (fmtRoc ⟨y, m, d⟩) = fmtRoc ⟨y, m, d⟩ := by
    rw [hroc]
    exact norm4_of_kinds (allApp (kindsD (y - 1911))
      (allCons (by decide) (allApp (kindsD m) (allCons (by decide) (kindsD d)))))
  have hn4 : normalize4 (fmtYmdNoSep ⟨y, m, d⟩) = fmtYmdNoSep ⟨y, m, d⟩ :=
    norm4_of_kinds (allApp (allApp (kindsD y) (kindsP m)) (kindsP d))
  have hn5 : normalize4 (fmtMDpad ⟨y, m, d⟩) = fmtMDpad ⟨y, m, d⟩ :=
    norm4_of_kinds (allApp (kindsP m) (allCons (by decide) (kindsP d)))
  have hn6 : normalize4 (fmtMD ⟨y, m, d⟩) = fmtMD ⟨y, m, d⟩ :=
    norm4_of_kinds (allApp (kindsD m) (allCons (by decide) (kindsD d)))
  have hn7 : normalize4 (fmtChinese ⟨y, m, d⟩) = fmtChinese ⟨y, m, d⟩ :=
    norm4_of_kinds (allApp (kindsD y) (allCons (by decide)
      (allApp (kindsD m) (allCons (by decide)
        (allApp (kindsD d) (allCons (by decide) kindsNil))))))
  have hn8 : normalize4 (fmtChineseShort ⟨y, m, d⟩) = fmtChineseShort ⟨y, m, d⟩ :=
    norm4_of_kinds (allApp (kindsD m) (allCons (by decide)
      (allApp (kindsD d) (allCons (by decide) kindsNil))))
  refine ⟨?_, ?_, ?_, ?_, ?_⟩
  · rw [hn1]
    exact find_iso y m d '-' (Or.inl rfl) hy1' hy2' hm1 hm2 hd1 hd2
  · rw [hn2]
    exact find_iso y m d '/' (Or.inr rfl) hy1' hy2' hm1 hm2 hd1 hd2
  · rw [hn3, hroc]
    exact find_roc y m d hy1 hy2 hm1 hm2 hd1 hd2
  · rw [hn4]
    exact find_nosep y m d
  · intro hne29
    have hd2' : d ≤ daysInMonth 1900 m := day_le_1900 y m d hne29 hd2
    refine ⟨?_, ?_, ?_, ?_⟩
    · rw [hn5]
      exact ⟨⟨1900, m, d⟩, find_md_slash (pad2 m) (pad2 d) m d (pad2_all_isDig m)
        (pad2_all_isDig d) (Or.inr (pad2_len (by omega)))
        (Or.inr (pad2_len (by have := daysInMonth_le 1900 m; omega)))
        (pad2_val (by omega)) (pad2_val (by have := daysInMonth_le 1900 m; omega))
        hm1 hm2 hd1 hd2', rfl, rfl⟩
    · rw [hn6]
      have hlm : (numToChars m).length = 1 ∨ (numToChars m).length = 2 := by
        by_cases h10 : m < 10
        · exact Or.inl (ntc_len1 h10)
        · exact Or.inr (ntc_len2 (by omega) (by omega))
      have hld : (numToChars d).length = 1 ∨ (numToChars d).length = 2 := by
        have := daysInMonth_le 1900 m
        by_cases h10 : d < 10
        · exact Or.inl (ntc_len1 h10)
        · exact Or.inr (ntc_len2 (by omega) (by omega))
      exact ⟨⟨1900, m, d⟩, find_md_slash (numToChars m) (numToChars d) m d
        (ntc_all_isDig m) (ntc_all_isDig d) hlm hld (ntc_val m) (ntc_val d)
        hm1 hm2 hd1 hd2', rfl, rfl⟩
    · rw [hn7]
      exact ⟨⟨1900, m, d⟩, find_chinese_long y m d hy1' hy2' hm1 hm2 hd1 hd2', rfl, rfl⟩
    · rw [hn8]
      exact ⟨⟨1900, m, d⟩, find_chinese_short m d hm1 hm2 hd1 hd2', rfl, rfl⟩

/-- Witness for the amended C1 at target 2025-10-23: the hypotheses hold and
the ISO dash form is recognized as 2025-10-23 while the unpadded `M/D` form
is recognized with month 10 and day 23. -/
theorem claim_C1_witness :
    (2011 ≤ 2025 ∧ (23 : Nat) ≤ daysInMonth 2025 10 ∧ ¬((10 : Nat) = 2 ∧ (23 : Nat) = 29)) ∧
    ((⟨2025, 10, 23⟩ : PyDate) ∈
      find_date_like_in_text (normalize4 (fmtIsoDash ⟨2025, 10, 23⟩))) ∧
    (∃ e ∈ find_date_like_in_text (normalize4 (fmtMD ⟨2025, 10, 23⟩)),
      e.month = 10 ∧ e.day = 23) := by
  have hc := claim_C1 2025 10 23 (by decide) (by decide) (by decide) (by decide)
    (by decide) (by decide)
  exact ⟨⟨by decide, by decide, by decide⟩, hc.1, (hc.2.2.2.2 (by decide)).2.1⟩

end EventSummary


